import Mathlib

/-!
# Fastest path over a terrain grid (`utility.hpp`)

A shallow embedding of the terrain maze of `utility.hpp`: the barrier construction
`make_maze`, the edge cost `maze::timeWeight`, the heuristic `manhattan_heuristic`
and the search `maze::solve`.

Conventions of the embedding.

* `double` values are real numbers (`ℝ`); no rounding is modelled.
* `std::size_t` values are natural numbers; where the source subtracts two of them
  the wrap-around modulo `2 ^ 64` is written out, and the conversion to `int`
  performed by the call of `abs` is written out as well.
* `std::vector<uint8_t>` is a `List Nat` of byte values.  A read past the end is
  undefined in the source; the embedding reads `0` there and every statement about a
  read either has the index in range or asks for a non-zero value.
* `boost::unordered_set<vertex_descriptor>` is a list without order significance:
  only membership is observed.
-/

namespace FastestPath

/-! ## Constants -/

/-- The source's `const int cwConstant = 5`. -/
def cwConstant : Int := 5

/-- Override flag `OF_RIVER_MARSH = 0x10`. -/
def OF_RIVER_MARSH : Nat := 0x10

/-- Override flag `OF_INLAND = 0x20`. -/
def OF_INLAND : Nat := 0x20

/-- Override flag `OF_WATER_BASIN = 0x40`. -/
def OF_WATER_BASIN : Nat := 0x40

/-- Width and height of the elevation and overrides image. -/
def IMAGE_DIM : Nat := 2048

/-! ## Vertices and the rank-2 grid -/

/-- A vertex of `boost::grid_graph<2>`: the array of its two coordinates. -/
abbrev vertex_descriptor := Nat × Nat

/-- The `boost::grid_graph<2>`: it is determined by its two lengths. -/
structure grid where
  len0 : Nat
  len1 : Nat
deriving DecidableEq, Repr

/-- The length of the grid along dimension `d`. -/
def grid.length (g : grid) (d : Nat) : Nat := if d = 0 then g.len0 else g.len1

/-- Boost's `vertex(i, grid)`: coordinate `d` of the vertex of index `i` is
`(i / (product of the earlier lengths)) % length d`. -/
def grid.vertex (g : grid) (i : Nat) : vertex_descriptor :=
  ((i / 1) % g.len0, (i / g.len0) % g.len1)

/-- A vertex lies in the grid when both coordinates are below the lengths. -/
def grid.contains (g : grid) (v : vertex_descriptor) : Bool :=
  decide (v.1 < g.len0) && decide (v.2 < g.len1)

/-- Out-edge targets of a vertex of the (non-wrapping) grid graph, in the order of
Boost's `out_edge_at`: previous and next along dimension 0, then along dimension 1. -/
def grid.out_targets (g : grid) (v : vertex_descriptor) : List vertex_descriptor :=
  (if v.1 ≠ 0 then [(v.1 - 1, v.2)] else []) ++
  (if v.1 + 1 ≠ g.len0 then [(v.1 + 1, v.2)] else []) ++
  (if v.2 ≠ 0 then [(v.1, v.2 - 1)] else []) ++
  (if v.2 + 1 ≠ g.len1 then [(v.1, v.2 + 1)] else [])

/-! ## Machine arithmetic used by the source -/

/-- Difference of two `std::size_t` values: unsigned, modulo `2 ^ 64`. -/
def size_sub (a b : Nat) : Nat := (a % 2 ^ 64 + (2 ^ 64 - b % 2 ^ 64)) % 2 ^ 64

/-- Conversion of a `std::size_t` to `int` (two's complement, 32 bits). -/
def to_int (n : Nat) : Int :=
  if n % 2 ^ 32 < 2 ^ 31 then ((n % 2 ^ 32 : Nat) : Int) else ((n % 2 ^ 32 : Nat) : Int) - 2 ^ 32

/-- The call `abs(a - b)` on two `std::size_t` values: the unsigned difference is
converted to `int` and its absolute value is taken. -/
def abs_diff (a b : Nat) : Int := |to_int (size_sub a b)|

/-- The element `elevation[v[0] + v[1] * IMAGE_DIM]` as an `int`. -/
def elevation_at (elevation : List Nat) (v : vertex_descriptor) : Int :=
  ((elevation.getD ((v.1 + v.2 * IMAGE_DIM) % 2 ^ 64) 0 : Nat) : Int)

/-! ## The maze -/

/-- The class `maze`: the grid, the elevation map, the barrier set, and the solution
state.  The filtered grid `m_barrier_grid` is a view of `m_grid` and `m_barriers` and
has no state of its own. -/
structure maze where
  m_grid : grid
  m_elev : List Nat
  m_barriers : List vertex_descriptor
  m_solution : List vertex_descriptor
  m_solution_length : ℝ

/-- Constructor `maze(x, y, elevation)`: no barriers, no solution. -/
def maze.new (x y : Nat) (elevation : List Nat) : maze :=
  { m_grid := ⟨x, y⟩, m_elev := elevation, m_barriers := [], m_solution := [],
    m_solution_length := 0 }

/-- Member `has_barrier`. -/
def maze.has_barrier (m : maze) (u : vertex_descriptor) : Bool := decide (u ∈ m.m_barriers)

/-- Member `solved`. -/
def maze.solved (m : maze) : Bool := !m.m_solution.isEmpty

/-- Member `solution_contains`. -/
def maze.solution_contains (m : maze) (u : vertex_descriptor) : Bool :=
  decide (u ∈ m.m_solution)

/-- Member `timeWeight`: the time of one step from `source` to `target`. -/
noncomputable def maze.timeWeight (source target : vertex_descriptor)
    (elevation : List Nat) : ℝ :=
  let diag : Bool := decide (abs_diff source.1 target.1 = abs_diff source.2 target.2)
  let sourceElevation : Int := elevation_at elevation source
  let targetElevation : Int := elevation_at elevation target
  if sourceElevation = 0 ∨ targetElevation = 0 then 0
  else
    let delta : Int := targetElevation - sourceElevation
    if !diag then
      if delta = 0 then 1
      else if delta > 0 then
        Real.sqrt (1 + 0.003937 * (delta : ℝ) ^ 2) + (cwConstant : ℝ) * 0.0627455 * (delta : ℝ)
      else
        Real.sqrt (1 + 0.003937 * (delta : ℝ) ^ 2) - (cwConstant : ℝ) * 0.0627455 * (delta : ℝ)
    else
      if delta = 0 then 1.414
      else if delta > 0 then
        Real.sqrt (2 + 0.003937 * (delta : ℝ) ^ 2) + (cwConstant : ℝ) * 0.0627455 * (delta : ℝ)
      else
        Real.sqrt (2 + 0.003937 * (delta : ℝ) ^ 2) - (cwConstant : ℝ) * 0.0627455 * (delta : ℝ)

/-- The test of `make_maze` on the override and elevation bytes of one index. -/
def is_flagged (override elev : Nat) : Bool :=
  decide (override &&& (OF_WATER_BASIN ||| OF_RIVER_MARSH) ≠ 0) || decide (elev = 0)

/-- One pass of the loop body of `make_maze` for the pair `io` of a linear index and the
override byte at that index: the maze and the running count. -/
def make_maze_step (elevation : List Nat) (acc : maze × Nat) (io : Nat × Nat) : maze × Nat :=
  if is_flagged io.2 (elevation.getD io.1 0) then
    let u := acc.1.m_grid.vertex io.1
    ({ acc.1 with m_barriers := acc.1.m_barriers.insert u }, acc.2 + 1)
  else acc

/-- Function `make_maze`: the maze together with the count it prints.  The arguments
`x` and `y` are not used by the source: the grid is `IMAGE_DIM` by `IMAGE_DIM`. -/
def make_maze (_x _y : Nat) (overrides elevation : List Nat) : maze × Nat :=
  overrides.enum.foldl (make_maze_step elevation) (maze.new IMAGE_DIM IMAGE_DIM elevation, 0)

/-! ## The heuristic -/

/-- Class `manhattan_heuristic`: `operator()` of the heuristic built for `m_goal`. -/
def manhattan_heuristic (m_goal v : vertex_descriptor) : ℝ :=
  1 * (((abs_diff m_goal.1 v.1 : Int) : ℝ) + ((abs_diff m_goal.2 v.2 : Int) : ℝ))

/-! ## Boost's `astar_search`

The search of the Boost Graph Library, as `maze::solve` calls it: named parameters
`weight_map`, `predecessor_map`, `distance_map` and `visitor`, the remaining ones at
their defaults (`std::less`, `closed_plus`, colour and cost maps of the library).

* `distance_inf`, the largest `double`, is `⊤`: `closed_plus` keeps it absorbing, and
  the search of a finite grid never adds up to it.
* The 4-ary heap is a list of its members; which member of least cost `top()` returns
  is left to the parameter `top`, so that the statements hold for every tie-break.
* `examine_edge` throws `negative_edge` on a negative weight; `timeWeight` is never
  negative, so this exit is not modelled.
-/

/-- Boost's `default_color_type`, the three colours used by the search. -/
inductive default_color_type
  | white_color
  | gray_color
  | black_color
deriving DecidableEq, Repr

open default_color_type

/-- The graph the search runs on, with the maps handed to `astar_search`. -/
structure astar_graph (V : Type) (α : Type) where
  /-- Vertex set of the graph, as iterated by `vertices(g)`. -/
  vertices : V → Bool
  /-- Targets of `out_edges(u, g)`, in iteration order. -/
  out_targets : V → List V
  /-- The weight map: weight of the edge from the first to the second vertex. -/
  weight : V → V → α
  /-- The heuristic. -/
  h : V → α
  /-- Value-initialised vertex, read from a map at a key it does not hold. -/
  dflt : V
  /-- Choice made by `top()` of the heap, given the cost map and the members. -/
  top : (V → WithTop α) → List V → V

/-- The maps and the queue of a running search. -/
structure astar_state (V : Type) (α : Type) where
  color : V → default_color_type
  distance : V → WithTop α
  cost : V → WithTop α
  predecessor : V → V
  Q : List V

section Search

variable {V : Type} [DecidableEq V] {α : Type} [LinearOrderedCommRing α]

/-- Boost's `relax` on the edge from `u` to `v` of a directed graph: the new state and
whether the distance of `v` decreased.  (The second comparison of the source repeats the
first one on the stored value; in exact arithmetic it always agrees.) -/
def relax (G : astar_graph V α) (u v : V) (st : astar_state V α) : astar_state V α × Bool :=
  if st.distance u + (G.weight u v : WithTop α) < st.distance v then
    ({ st with
        distance := Function.update st.distance v (st.distance u + (G.weight u v : WithTop α))
        predecessor := Function.update st.predecessor v u }, true)
  else (st, false)

/-- Common part of `tree_edge`, `gray_target` and `black_target` of `astar_bfs_visitor`:
relax the edge and, when the distance decreased, store the new cost `distance + h`. -/
def relax_cost (G : astar_graph V α) (u v : V) (st : astar_state V α) :
    astar_state V α × Bool :=
  let r := relax G u v st
  if r.2 then
    ({ r.1 with cost := Function.update r.1.cost v (r.1.distance v + (G.h v : WithTop α)) }, true)
  else r

/-- Body of the out-edge loop of `breadth_first_visit` for the edge from `u` to `v`. -/
def visit_edge (G : astar_graph V α) (u : V) (st : astar_state V α) (v : V) :
    astar_state V α :=
  match st.color v with
  | white_color =>
    -- tree_edge, then colour gray and push
    let r := relax_cost G u v st
    { r.1 with color := Function.update r.1.color v gray_color, Q := r.1.Q ++ [v] }
  | gray_color =>
    -- gray_target; `Q.update(v)` keeps the members
    (relax_cost G u v st).1
  | black_color =>
    -- black_target: a vertex whose distance decreased is pushed again
    let r := relax_cost G u v st
    if r.2 then
      { r.1 with color := Function.update r.1.color v gray_color, Q := r.1.Q ++ [v] }
    else r.1

/-- All out-edges of `u`, then `u` is coloured black. -/
def expand (G : astar_graph V α) (u : V) (st : astar_state V α) : astar_state V α :=
  let st2 := (G.out_targets u).foldl (visit_edge G u) st
  { st2 with color := Function.update st2.color u black_color }

/-- The loop of `breadth_first_visit` with the visitor of `astar_search` and the goal
visitor of the maze: `some (true, st)` when `examine_vertex` meets the goal (the source
throws `found_goal`), `some (false, st)` when the queue runs empty, `none` when the
fuel does. -/
def bfs_loop (G : astar_graph V α) (goal : V) : Nat → astar_state V α →
    Option (Bool × astar_state V α)
  | 0, _ => none
  | fuel + 1, st =>
    if st.Q = [] then some (false, st)
    else
      let u := G.top st.cost st.Q
      let st1 := { st with Q := st.Q.erase u }
      if u = goal then some (true, st1)
      else bfs_loop G goal fuel (expand G u st1)

/-- State at the start of the loop: every vertex of the graph white with distance and
cost `distance_inf` and itself as predecessor; then distance `0` and cost `h s` for the
start vertex, which is coloured gray and pushed. -/
def astar_init (G : astar_graph V α) (s : V) : astar_state V α :=
  { color := Function.update (fun _ => white_color) s gray_color
    distance := Function.update (fun v => if G.vertices v then ⊤ else 0) s 0
    cost := Function.update (fun v => if G.vertices v then ⊤ else 0) s (G.h s : WithTop α)
    predecessor := fun v => if G.vertices v then v else G.dflt
    Q := [s] }

/-- Boost's `astar_search` from `s` with the goal visitor for `goal`. -/
def astar_search (G : astar_graph V α) (s goal : V) (fuel : Nat) :
    Option (Bool × astar_state V α) :=
  bfs_loop G goal fuel (astar_init G s)

/-- The loop `for (u = goal; u != source; u = predecessor[u]) m_solution.insert(u)`. -/
def walk_back (predecessor : V → V) (source : V) : Nat → V → List V → Option (List V)
  | 0, _, _ => none
  | fuel + 1, u, sol =>
    if u = source then some sol
    else walk_back predecessor source fuel (predecessor u) (sol.insert u)

/-- A `top` that returns the first member of least cost. -/
def top_first (cost : V → WithTop α) : List V → V → V
  | [], d => d
  | v :: l, _ =>
    let b := top_first cost l v
    if cost b < cost v then b else v

end Search

/-! ## `maze::solve` -/

/-- The largest finite `double`, the value of `distance_inf`. -/
noncomputable def distance_inf : ℝ := (2 - 1 / 2 ^ 52) * 2 ^ 1023

/-- The filtered grid `m_barrier_grid` with the maps `solve` builds for the search. -/
noncomputable def maze.search_graph (m : maze) (goal : vertex_descriptor)
    (top : (vertex_descriptor → WithTop ℝ) → List vertex_descriptor → vertex_descriptor) :
    astar_graph vertex_descriptor ℝ :=
  { vertices := fun v => m.m_grid.contains v && !m.has_barrier v
    out_targets := fun u => (m.m_grid.out_targets u).filter (fun v => !m.has_barrier v)
    weight := fun u v => maze.timeWeight u v m.m_elev
    h := manhattan_heuristic goal
    dflt := (0, 0)
    top := top }

/-- Member `solve`: `some (true, m2)` with the updated maze when the goal was found,
`some (false, m)` when the search ended without it, `none` when the fuel ran out. -/
noncomputable def maze.solve (m : maze)
    (top : (vertex_descriptor → WithTop ℝ) → List vertex_descriptor → vertex_descriptor)
    (fuel : Nat) (source goal : vertex_descriptor) : Option (Bool × maze) :=
  match astar_search (m.search_graph goal top) source goal fuel with
  | none => none
  | some (false, _) => some (false, m)
  | some (true, st) =>
    match walk_back st.predecessor source fuel goal m.m_solution with
    | none => none
    | some sol =>
      some (true, { m with
        m_solution := sol.insert source
        m_solution_length := (st.distance goal).untop' distance_inf })

/-! ## Vocabulary of the statements -/

section Vocabulary

variable {V : Type} [DecidableEq V] {α : Type} [LinearOrderedCommRing α]

/-- A walk along out-edges of the search graph, with the sum of its weights. -/
inductive Walk (G : astar_graph V α) (x : V) : V → α → Prop
  | nil : Walk G x x 0
  | snoc {y z : V} {c : α} : Walk G x y c → z ∈ G.out_targets y →
      Walk G x z (c + G.weight y z)

/-- A vertex is closed when it is black or is the vertex being expanded. -/
def closed (st : astar_state V α) (cur : Option V) (x : V) : Prop :=
  st.color x = black_color ∨ cur = some x

/-- The state after the edge from `u` to `v` was relaxed with success: new distance,
cost and predecessor for `v`, which is gray; the members of the queue are `q`. -/
def relaxed_state (G : astar_graph V α) (u v : V) (st : astar_state V α) (q : List V) :
    astar_state V α :=
  { color := Function.update st.color v gray_color
    distance := Function.update st.distance v (st.distance u + (G.weight u v : WithTop α))
    cost := Function.update st.cost v
      (st.distance u + (G.weight u v : WithTop α) + (G.h v : WithTop α))
    predecessor := Function.update st.predecessor v u
    Q := q }

/-- What the search relies on: the out-edges of a visited vertex lead to vertices of
the graph, weights are not negative, the heuristic is consistent and the weight
positive on the out-edges of a vertex of the graph, and `top` returns a member of
least cost. -/
structure Admits (G : astar_graph V α) (s : V) : Prop where
  targets_in : ∀ x y, (x = s ∨ G.vertices x = true) → y ∈ G.out_targets x →
    G.vertices y = true
  weight_nonneg : ∀ x y, 0 ≤ G.weight x y
  consistent : ∀ x y, G.vertices x = true → y ∈ G.out_targets x →
    G.h x ≤ G.weight x y + G.h y
  weight_pos : ∀ x y, G.vertices x = true → y ∈ G.out_targets x → 0 < G.weight x y
  top_mem : ∀ (c : V → WithTop α) (l : List V), l ≠ [] → G.top c l ∈ l
  top_le : ∀ (c : V → WithTop α) (l : List V), ∀ v ∈ l, c (G.top c l) ≤ c v

/-- The invariant of the search: `cur` is the vertex being expanded, if any, and
`pending` the targets of its out-edges still to be visited. -/
structure Inv (G : astar_graph V α) (s goal : V) (st : astar_state V α)
    (cur : Option V) (pending : List V) : Prop where
  src : st.distance s = 0 ∧ st.color s ≠ white_color
  white_top : ∀ v, G.vertices v = true → st.color v = white_color → st.distance v = ⊤
  fin : ∀ v, st.color v ≠ white_color →
    ∃ d : α, 0 ≤ d ∧ st.distance v = (d : WithTop α) ∧ st.cost v = ((d + G.h v : α) : WithTop α)
  dom : ∀ v, st.color v ≠ white_color → v = s ∨ G.vertices v = true
  q_nodup : st.Q.Nodup
  q_iff : ∀ v, v ∈ st.Q ↔ st.color v = gray_color ∧ cur ≠ some v
  cur_gray : ∀ u, cur = some u → st.color u = gray_color ∧ u ≠ goal
  not_goal : ∀ x, st.color x = black_color → x ≠ goal
  edge : ∀ x, closed st cur x → ∀ y ∈ G.out_targets x,
    (cur = some x ∧ y ∈ pending) ∨ st.distance y ≤ st.distance x + (G.weight x y : WithTop α)
  mono_q : ∀ x, closed st cur x → G.vertices x = true → ∀ y ∈ st.Q, st.cost x ≤ st.cost y
  mono_cur : ∀ u, cur = some u → ∀ x, st.color x = black_color → G.vertices x = true →
    st.cost x ≤ st.cost u
  pred : ∀ v, st.color v ≠ white_color → v ≠ s →
    closed st cur (st.predecessor v) ∧ v ∈ G.out_targets (st.predecessor v) ∧
      st.distance v = st.distance (st.predecessor v) + (G.weight (st.predecessor v) v : WithTop α)
  first : st.color s = gray_color → ∀ x, x ≠ s →
    st.color x = white_color ∨ (cur = some s ∧ st.color x = gray_color)
  pend : ∀ y ∈ pending, ∃ u, cur = some u ∧ y ∈ G.out_targets u

/-- The state in which the search stops with success: the goal was taken from the
queue of a state `st0` that satisfies the invariant, as a member of least cost. -/
def found_state (G : astar_graph V α) (s goal : V) (st : astar_state V α) : Prop :=
  ∃ st0, Inv G s goal st0 none [] ∧ goal ∈ st0.Q ∧
    (∀ y ∈ st0.Q, st0.cost goal ≤ st0.cost y) ∧ st = { st0 with Q := st0.Q.erase goal }

/-- The state in which the search stops without success: the invariant holds and the
queue is empty. -/
def exhausted_state (G : astar_graph V α) (s goal : V) (st : astar_state V α) : Prop :=
  Inv G s goal st none [] ∧ st.Q = []

/-- The walk of the predecessor map from `u` back to `s`: `tl` lists the vertices
visited after `u`, each the predecessor of the one before, the last one being `s`;
no vertex before the last is `s`. -/
def pred_walk (predecessor : V → V) (s : V) : V → List V → Prop
  | u, [] => u = s
  | u, y :: r => u ≠ s ∧ predecessor u = y ∧ pred_walk predecessor s y r

/-- Sum of the weights of the steps of a walk back from `u` through `tl`: each step
is weighed in the forward direction, from the predecessor to the vertex. -/
def chain_cost (w : V → V → α) : V → List V → α
  | _, [] => 0
  | u, y :: r => w y u + chain_cost w y r

end Vocabulary

/-! ## Vocabulary of the statements about the maze -/

/-- Two cells are orthogonally adjacent: they differ by one in exactly one coordinate. -/
def orth_adjacent (a b : vertex_descriptor) : Prop :=
  (a.2 = b.2 ∧ (a.1 + 1 = b.1 ∨ b.1 + 1 = a.1)) ∨
    (a.1 = b.1 ∧ (a.2 + 1 = b.2 ∨ b.2 + 1 = a.2))

/-- A cell of the grid that is not a barrier. -/
def maze.open_cell (m : maze) (v : vertex_descriptor) : Prop :=
  m.m_grid.contains v = true ∧ m.has_barrier v = false

/-- A path of the maze from `source` to `goal`: a sequence of non-barrier cells of the
grid, each orthogonally adjacent to the next. -/
def maze.is_path (m : maze) (source goal : vertex_descriptor)
    (p : List vertex_descriptor) : Prop :=
  p.head? = some source ∧ p.getLast? = some goal ∧ (∀ v ∈ p, m.open_cell v) ∧
    p.Chain' orth_adjacent

/-- The summed `timeWeight` of the steps of a sequence of cells. -/
noncomputable def maze.path_cost (m : maze) : List vertex_descriptor → ℝ
  | [] => 0
  | [_] => 0
  | a :: b :: r => maze.timeWeight a b m.m_elev + maze.path_cost m (b :: r)

/-- The invariant of the maze that `make_maze` establishes from maps of full length:
every cell of the grid that is not a barrier has a non-zero elevation (a cell of zero
elevation is a barrier). -/
def maze.well_formed (m : maze) : Prop :=
  ∀ v, m.open_cell v → elevation_at m.m_elev v ≠ 0

/-- What is asked of `top()`: on a non-empty queue it returns a member, and no member
has a smaller cost. -/
def top_spec (top : (vertex_descriptor → WithTop ℝ) → List vertex_descriptor →
    vertex_descriptor) : Prop :=
  (∀ (c : vertex_descriptor → WithTop ℝ) (l : List vertex_descriptor),
      l ≠ [] → top c l ∈ l) ∧
    ∀ (c : vertex_descriptor → WithTop ℝ) (l : List vertex_descriptor),
      ∀ v ∈ l, c (top c l) ≤ c v

/-- A `top()` for the maze: the first member of least cost. -/
noncomputable def top_first_min (c : vertex_descriptor → WithTop ℝ)
    (l : List vertex_descriptor) : vertex_descriptor :=
  top_first c l (0, 0)

/-- The set of the cells of the grid of the maze that are not barriers. -/
def maze.open_cells (m : maze) : Finset vertex_descriptor :=
  ((Finset.range m.m_grid.len0) ×ˢ (Finset.range m.m_grid.len1)).filter
    (fun v => m.has_barrier v = false)

/-- An override map of full size without any flag. -/
def flat_overrides : List Nat := List.replicate (IMAGE_DIM * IMAGE_DIM) 0

/-- An elevation map of full size of a flat terrain: every elevation is 100. -/
def flat_elevation : List Nat := List.replicate (IMAGE_DIM * IMAGE_DIM) 100

/-- An override map of full size whose first cell, `(0, 0)`, is flagged as water basin
and which has no other flag. -/
def basin_overrides : List Nat := 0x40 :: List.replicate (IMAGE_DIM * IMAGE_DIM - 1) 0

/-- An elevation map of full size of a 4x4 terrain: elevation 100 on the cells with both
coordinates below 4, no data (elevation 0) on every other cell. -/
def island_elevation : List Nat :=
  (List.range (IMAGE_DIM * IMAGE_DIM)).map
    (fun i => if i % IMAGE_DIM < 4 ∧ i / IMAGE_DIM < 4 then 100 else 0)

end FastestPath


namespace FastestPath

open default_color_type

/-! ## The search: effect of one edge -/

section Generic

set_option linter.unusedSectionVars false

variable {V : Type} [DecidableEq V] {α : Type} [LinearOrderedCommRing α]
variable {G : astar_graph V α} {s goal : V}

theorem visit_edge_white {u v : V} {st : astar_state V α}
    (hc : st.color v = white_color)
    (h : st.distance u + (G.weight u v : WithTop α) < st.distance v) :
    visit_edge G u st v = relaxed_state G u v st (st.Q ++ [v]) := by
  simp [visit_edge, relax_cost, relax, hc, h, relaxed_state]

theorem visit_edge_gray {u v : V} {st : astar_state V α}
    (hc : st.color v = gray_color)
    (h : st.distance u + (G.weight u v : WithTop α) < st.distance v) :
    visit_edge G u st v = relaxed_state G u v st st.Q := by
  have hcol : Function.update st.color v gray_color = st.color := by
    rw [← hc, Function.update_eq_self]
  simp [visit_edge, relax_cost, relax, hc, h, relaxed_state, hcol]

theorem visit_edge_same {u v : V} {st : astar_state V α}
    (hc : st.color v ≠ white_color)
    (h : ¬ st.distance u + (G.weight u v : WithTop α) < st.distance v) :
    visit_edge G u st v = st := by
  cases hcv : st.color v with
  | white_color => exact absurd hcv hc
  | gray_color => simp [visit_edge, relax_cost, relax, hcv, h]
  | black_color => simp [visit_edge, relax_cost, relax, hcv, h]

/-! ## The search: the invariant is kept -/

theorem closed_relaxed_iff {u v : V} {st : astar_state V α} {q : List V}
    (hvb : st.color v ≠ black_color) (hne : v ≠ u) (x : V) :
    closed (relaxed_state G u v st q) (some u) x ↔ closed st (some u) x ∧ x ≠ v := by
  unfold closed relaxed_state
  by_cases hx : x = v
  · subst hx
    simp [hvb, Ne.symm hne]
  · simp [Function.update_noteq hx, hx]

theorem Inv.relaxed (hA : Admits G s) {u v : V} {rest q : List V} {st : astar_state V α}
    (I : Inv G s goal st (some u) (v :: rest))
    (hlt : st.distance u + (G.weight u v : WithTop α) < st.distance v)
    (hq : (st.color v = white_color ∧ q = st.Q ++ [v]) ∨
      (st.color v = gray_color ∧ q = st.Q)) :
    Inv G s goal (relaxed_state G u v st q) (some u) rest := by
  obtain ⟨hug, hugoal⟩ := I.cur_gray u rfl
  have hunw : st.color u ≠ white_color := by rw [hug]; decide
  obtain ⟨du, hdu0, hdu, hcu⟩ := I.fin u hunw
  have hvu : v ∈ G.out_targets u := by
    obtain ⟨u', hu', h⟩ := I.pend v (List.mem_cons_self _ _)
    cases hu'
    exact h
  have hv : G.vertices v = true := hA.targets_in u v (I.dom u hunw) hvu
  have hw := hA.weight_nonneg u v
  have hvb : st.color v ≠ black_color := by
    rcases hq with ⟨h, _⟩ | ⟨h, _⟩ <;> rw [h] <;> decide
  have hne : v ≠ u := by
    rintro rfl
    rw [hdu] at hlt
    have : du + G.weight v v < du := by exact_mod_cast hlt
    linarith
  have hns : v ≠ s := by
    rintro rfl
    rw [hdu, I.src.1] at hlt
    have : du + G.weight u v < 0 := by exact_mod_cast hlt
    linarith
  have hcl : ∀ x, closed (relaxed_state G u v st q) (some u) x ↔
      closed st (some u) x ∧ x ≠ v := fun x => closed_relaxed_iff hvb hne x
  have hcol : ∀ x, x ≠ v → (relaxed_state G u v st q).color x = st.color x := fun x hx => by
    simp [relaxed_state, Function.update_noteq hx]
  have hcolv : (relaxed_state G u v st q).color v = gray_color := by simp [relaxed_state]
  have hdist : ∀ x, x ≠ v → (relaxed_state G u v st q).distance x = st.distance x :=
    fun x hx => by simp [relaxed_state, Function.update_noteq hx]
  have hdistv : (relaxed_state G u v st q).distance v = ((du + G.weight u v : α) : WithTop α) := by
    simp [relaxed_state, hdu]
  have hcost : ∀ x, x ≠ v → (relaxed_state G u v st q).cost x = st.cost x :=
    fun x hx => by simp [relaxed_state, Function.update_noteq hx]
  have hcostv : (relaxed_state G u v st q).cost v =
      ((du + G.weight u v + G.h v : α) : WithTop α) := by
    simp [relaxed_state, hdu]
  have hpred : ∀ x, x ≠ v → (relaxed_state G u v st q).predecessor x = st.predecessor x :=
    fun x hx => by simp [relaxed_state, Function.update_noteq hx]
  have hpredv : (relaxed_state G u v st q).predecessor v = u := by simp [relaxed_state]
  have hQ : (relaxed_state G u v st q).Q = q := rfl
  -- the cost of a closed vertex of the graph is at most the new cost of `v`
  have hkey : ∀ x, closed st (some u) x → G.vertices x = true →
      st.cost x ≤ ((du + G.weight u v + G.h v : α) : WithTop α) := by
    intro x hx hxv
    by_cases huv : G.vertices u = true
    · have hcons := hA.consistent u v huv hvu
      have h1 : st.cost x ≤ st.cost u := by
        rcases hx with hb | hb
        · exact I.mono_cur u rfl x hb hxv
        · cases hb; exact le_refl _
      refine le_trans h1 ?_
      rw [hcu]
      have : du + G.h u ≤ du + G.weight u v + G.h v := by linarith
      exact_mod_cast this
    · exfalso
      have hus : u = s := by
        rcases I.dom u hunw with h | h
        · exact h
        · exact absurd h huv
      subst hus
      rcases hx with hb | hb
      · have hxu : x ≠ u := by
          rintro rfl
          exact huv hxv
        rcases I.first hug x hxu with h | ⟨_, h⟩
        · rw [h] at hb; cases hb
        · rw [h] at hb; cases hb
      · cases hb
        exact huv hxv
  refine
    { src := ?_, white_top := ?_, fin := ?_, dom := ?_, q_nodup := ?_, q_iff := ?_,
      cur_gray := ?_, not_goal := ?_, edge := ?_, mono_q := ?_, mono_cur := ?_, pred := ?_,
      first := ?_, pend := ?_ }
  · rw [hdist s (Ne.symm hns), hcol s (Ne.symm hns)]
    exact I.src
  · intro x hx hc
    have hxv : x ≠ v := by
      rintro rfl
      rw [hcolv] at hc
      cases hc
    rw [hdist x hxv]
    rw [hcol x hxv] at hc
    exact I.white_top x hx hc
  · intro x hc
    by_cases hxv : x = v
    · subst hxv
      exact ⟨du + G.weight u x, by linarith, hdistv, hcostv⟩
    · rw [hcol x hxv] at hc
      rw [hdist x hxv, hcost x hxv]
      exact I.fin x hc
  · intro x hc
    by_cases hxv : x = v
    · subst hxv
      exact Or.inr hv
    · rw [hcol x hxv] at hc
      exact I.dom x hc
  · rw [hQ]
    rcases hq with ⟨hc, rfl⟩ | ⟨_, rfl⟩
    · have hvq : v ∉ st.Q := fun h => by
        have := ((I.q_iff v).1 h).1
        rw [hc] at this
        cases this
      refine List.Nodup.append I.q_nodup (List.nodup_singleton v) ?_
      intro a ha hav
      rw [List.mem_singleton] at hav
      exact hvq (hav ▸ ha)
    · exact I.q_nodup
  · intro x
    rw [hQ]
    by_cases hxv : x = v
    · subst hxv
      rw [hcolv]
      have hux : (some u : Option V) ≠ some x := fun h => hne (Option.some.inj h).symm
      rcases hq with ⟨_, rfl⟩ | ⟨hc, rfl⟩
      · simp [hux]
      · exact ⟨fun _ => ⟨rfl, hux⟩, fun _ => (I.q_iff x).2 ⟨hc, hux⟩⟩
    · rw [hcol x hxv]
      rcases hq with ⟨_, rfl⟩ | ⟨_, rfl⟩
      · rw [List.mem_append, List.mem_singleton]
        simp only [hxv, or_false]
        exact I.q_iff x
      · exact I.q_iff x
  · intro u' hu'
    cases hu'
    rw [hcol u (Ne.symm hne)]
    exact ⟨hug, hugoal⟩
  · intro x hc
    have hxv : x ≠ v := by
      rintro rfl
      rw [hcolv] at hc
      cases hc
    rw [hcol x hxv] at hc
    exact I.not_goal x hc
  · intro x hx' y hy
    obtain ⟨hx, hxv⟩ := (hcl x).1 hx'
    clear hx'
    rw [hdist x hxv]
    by_cases hyv : y = v
    · subst hyv
      right
      rw [hdistv]
      rcases I.edge x hx y hy with ⟨hxu, _⟩ | h
      · cases hxu
        rw [hdu]
        exact_mod_cast le_refl _
      · refine le_trans (le_of_lt ?_) h
        rw [hdu] at hlt
        exact_mod_cast hlt
    · rw [hdist y hyv]
      rcases I.edge x hx y hy with ⟨hxu, hmem⟩ | h
      · left
        refine ⟨hxu, ?_⟩
        rcases List.mem_cons.1 hmem with h | h
        · exact absurd h hyv
        · exact h
      · exact Or.inr h
  · intro x hx' hxG y hy
    obtain ⟨hx, hxv⟩ := (hcl x).1 hx'
    clear hx'
    rw [hcost x hxv]
    rw [hQ] at hy
    by_cases hyv : y = v
    · subst hyv
      rw [hcostv]
      exact hkey x hx hxG
    · rw [hcost y hyv]
      have hyQ : y ∈ st.Q := by
        rcases hq with ⟨_, rfl⟩ | ⟨_, rfl⟩
        · rcases List.mem_append.1 hy with h | h
          · exact h
          · exact absurd (List.mem_singleton.1 h) hyv
        · exact hy
      exact I.mono_q x hx hxG y hyQ
  · intro u' hu' x hc hxG
    cases hu'
    have hxv : x ≠ v := by
      rintro rfl
      rw [hcolv] at hc
      cases hc
    rw [hcol x hxv] at hc
    rw [hcost x hxv, hcost u (Ne.symm hne)]
    exact I.mono_cur u rfl x hc hxG
  · intro x hc hxs
    by_cases hxv : x = v
    · subst hxv
      rw [hpredv, hdistv, hdist u (Ne.symm hne), hdu]
      refine ⟨(hcl u).2 ⟨Or.inr rfl, Ne.symm hne⟩, hvu, ?_⟩
      push_cast
      rfl
    · rw [hcol x hxv] at hc
      obtain ⟨h1, h2, h3⟩ := I.pred x hc hxs
      have hpv : st.predecessor x ≠ v := by
        intro h
        rw [h] at h1
        rcases h1 with hb | hb
        · exact hvb hb
        · exact hne (Option.some.inj hb).symm
      rw [hpred x hxv, hdist x hxv, hdist _ hpv]
      exact ⟨(hcl _).2 ⟨h1, hpv⟩, h2, h3⟩
  · intro hsg x hxs
    rw [hcol s (Ne.symm hns)] at hsg
    have hus : u = s := by
      by_contra hus
      rcases I.first hsg u hus with h | ⟨h, _⟩
      · exact hunw h
      · exact hus (Option.some.inj h)
    by_cases hxv : x = v
    · subst hxv
      right
      exact ⟨by rw [hus], hcolv⟩
    · rw [hcol x hxv]
      exact I.first hsg x hxs
  · intro y hy
    exact I.pend y (List.mem_cons_of_mem _ hy)

theorem Inv.same {u v : V} {rest : List V} {st : astar_state V α}
    (I : Inv G s goal st (some u) (v :: rest))
    (hlt : ¬ st.distance u + (G.weight u v : WithTop α) < st.distance v) :
    Inv G s goal st (some u) rest := by
  refine
    { src := I.src, white_top := I.white_top, fin := I.fin, dom := I.dom,
      q_nodup := I.q_nodup, q_iff := I.q_iff, cur_gray := I.cur_gray,
      not_goal := I.not_goal, edge := ?_, mono_q := I.mono_q, mono_cur := I.mono_cur,
      pred := I.pred, first := I.first, pend := ?_ }
  · intro x hx y hy
    rcases I.edge x hx y hy with ⟨hxu, hmem⟩ | h
    · rcases List.mem_cons.1 hmem with h | h
      · right
        cases hxu
        subst h
        exact not_lt.1 hlt
      · exact Or.inl ⟨hxu, h⟩
    · exact Or.inr h
  · intro y hy
    exact I.pend y (List.mem_cons_of_mem _ hy)

/-- A black target is not relaxed. -/
theorem Inv.black_not_relaxed (hA : Admits G s) {u v : V} {rest : List V}
    {st : astar_state V α} (I : Inv G s goal st (some u) (v :: rest))
    (hc : st.color v = black_color) :
    ¬ st.distance u + (G.weight u v : WithTop α) < st.distance v := by
  obtain ⟨hug, -⟩ := I.cur_gray u rfl
  have hunw : st.color u ≠ white_color := by rw [hug]; decide
  obtain ⟨du, -, hdu, hcu⟩ := I.fin u hunw
  have hvnw : st.color v ≠ white_color := by rw [hc]; decide
  obtain ⟨dv, -, hdv, hcv⟩ := I.fin v hvnw
  have hvu : v ∈ G.out_targets u := by
    obtain ⟨u', hu', h⟩ := I.pend v (List.mem_cons_self _ _)
    cases hu'
    exact h
  have hv : G.vertices v = true := hA.targets_in u v (I.dom u hunw) hvu
  by_cases huv : G.vertices u = true
  · have hcons := hA.consistent u v huv hvu
    have h1 := I.mono_cur u rfl v hc hv
    rw [hcu, hcv] at h1
    have h2 : dv + G.h v ≤ du + G.h u := by exact_mod_cast h1
    rw [hdu, hdv]
    intro h
    have : du + G.weight u v < dv := by exact_mod_cast h
    linarith
  · exfalso
    have hus : u = s := by
      rcases I.dom u hunw with h | h
      · exact h
      · exact absurd h huv
    subst hus
    have hvu' : v ≠ u := by
      rintro rfl
      exact huv hv
    rcases I.first hug v hvu' with h | ⟨_, h⟩
    · rw [h] at hc; cases hc
    · rw [h] at hc; cases hc

theorem Inv.visit (hA : Admits G s) {u v : V} {rest : List V} {st : astar_state V α}
    (I : Inv G s goal st (some u) (v :: rest)) :
    Inv G s goal (visit_edge G u st v) (some u) rest ∧
      ∀ x, (visit_edge G u st v).color x = black_color ↔ st.color x = black_color := by
  obtain ⟨hug, -⟩ := I.cur_gray u rfl
  have hunw : st.color u ≠ white_color := by rw [hug]; decide
  obtain ⟨du, -, hdu, -⟩ := I.fin u hunw
  have hvu : v ∈ G.out_targets u := by
    obtain ⟨u', hu', h⟩ := I.pend v (List.mem_cons_self _ _)
    cases hu'
    exact h
  have hv : G.vertices v = true := hA.targets_in u v (I.dom u hunw) hvu
  have hblack : ∀ q x, st.color v ≠ black_color →
      ((relaxed_state G u v st q).color x = black_color ↔ st.color x = black_color) := by
    intro q x hvb
    by_cases hxv : x = v
    · subst hxv
      simp [relaxed_state, hvb]
    · simp [relaxed_state, Function.update_noteq hxv]
  cases hc : st.color v with
  | white_color =>
    have hlt : st.distance u + (G.weight u v : WithTop α) < st.distance v := by
      rw [I.white_top v hv hc, hdu]
      exact_mod_cast WithTop.coe_lt_top _
    rw [visit_edge_white hc hlt]
    exact ⟨I.relaxed hA hlt (Or.inl ⟨hc, rfl⟩), fun x => hblack _ x (by rw [hc]; decide)⟩
  | gray_color =>
    by_cases hlt : st.distance u + (G.weight u v : WithTop α) < st.distance v
    · rw [visit_edge_gray hc hlt]
      exact ⟨I.relaxed hA hlt (Or.inr ⟨hc, rfl⟩), fun x => hblack _ x (by rw [hc]; decide)⟩
    · rw [visit_edge_same (by rw [hc]; decide) hlt]
      exact ⟨I.same hlt, fun x => Iff.rfl⟩
  | black_color =>
    have hlt := I.black_not_relaxed hA hc
    rw [visit_edge_same (by rw [hc]; decide) hlt]
    exact ⟨I.same hlt, fun x => Iff.rfl⟩

theorem Inv.fold (hA : Admits G s) {u : V} : ∀ (pending : List V) (st : astar_state V α),
    Inv G s goal st (some u) pending →
    Inv G s goal (pending.foldl (visit_edge G u) st) (some u) [] ∧
      ∀ x, (pending.foldl (visit_edge G u) st).color x = black_color ↔
        st.color x = black_color
  | [], st, I => ⟨I, fun _ => Iff.rfl⟩
  | v :: rest, st, I => by
    obtain ⟨I1, h1⟩ := I.visit hA
    obtain ⟨I2, h2⟩ := Inv.fold hA rest _ I1
    exact ⟨I2, fun x => (h2 x).trans (h1 x)⟩

theorem Inv.pop (hA : Admits G s) {st : astar_state V α} (I : Inv G s goal st none [])
    (hQ : st.Q ≠ []) (hgoal : G.top st.cost st.Q ≠ goal) :
    Inv G s goal { st with Q := st.Q.erase (G.top st.cost st.Q) }
      (some (G.top st.cost st.Q)) (G.out_targets (G.top st.cost st.Q)) := by
  have hmem := hA.top_mem st.cost st.Q hQ
  have hle := hA.top_le st.cost st.Q
  generalize G.top st.cost st.Q = u at hmem hle hgoal
  have hug : st.color u = gray_color := ((I.q_iff u).1 hmem).1
  refine
    { src := I.src, white_top := I.white_top, fin := I.fin, dom := I.dom,
      q_nodup := I.q_nodup.erase u, q_iff := ?_, cur_gray := ?_,
      not_goal := I.not_goal, edge := ?_, mono_q := ?_, mono_cur := ?_,
      pred := ?_, first := ?_, pend := ?_ }
  · intro x
    show x ∈ st.Q.erase u ↔ _
    rw [I.q_nodup.mem_erase_iff, I.q_iff x]
    constructor
    · rintro ⟨hxu, hg, -⟩
      exact ⟨hg, fun h => hxu (Option.some.inj h).symm⟩
    · rintro ⟨hg, hxu⟩
      exact ⟨fun h => hxu (by rw [h]), hg, by simp⟩
  · intro u' hu'
    cases hu'
    exact ⟨hug, hgoal⟩
  · intro x hx y hy
    rcases hx with hb | hb
    · rcases I.edge x (Or.inl hb) y hy with ⟨h, _⟩ | h
      · cases h
      · exact Or.inr h
    · cases hb
      exact Or.inl ⟨rfl, hy⟩
  · intro x hx hxG y hy
    have hyQ : y ∈ st.Q := List.mem_of_mem_erase hy
    rcases hx with hb | hb
    · exact I.mono_q x (Or.inl hb) hxG y hyQ
    · cases hb
      exact hle y hyQ
  · intro u' hu' x hb hxG
    cases hu'
    exact I.mono_q x (Or.inl hb) hxG u hmem
  · intro x hc hxs
    obtain ⟨h1, h2, h3⟩ := I.pred x hc hxs
    refine ⟨?_, h2, h3⟩
    rcases h1 with hb | hb
    · exact Or.inl hb
    · cases hb
  · intro hsg x hxs
    rcases I.first hsg x hxs with h | ⟨h, _⟩
    · exact Or.inl h
    · cases h
  · intro y hy
    exact ⟨u, rfl, hy⟩

theorem Inv.finish {u : V} {st : astar_state V α} (I : Inv G s goal st (some u) []) :
    Inv G s goal { st with color := Function.update st.color u black_color } none [] := by
  obtain ⟨hug, hugoal⟩ := I.cur_gray u rfl
  have hunw : st.color u ≠ white_color := by rw [hug]; decide
  have hcol : ∀ x, x ≠ u → Function.update st.color u black_color x = st.color x :=
    fun x hx => Function.update_noteq hx _ _
  have hcolu : Function.update st.color u black_color u = black_color :=
    Function.update_same _ _ _
  have hnw : ∀ x, Function.update st.color u black_color x ≠ white_color →
      st.color x ≠ white_color := by
    intro x hx
    by_cases hxu : x = u
    · subst hxu; exact hunw
    · rwa [hcol x hxu] at hx
  have hcl : ∀ x, Function.update st.color u black_color x = black_color →
      closed st (some u) x := by
    intro x hx
    by_cases hxu : x = u
    · subst hxu; exact Or.inr rfl
    · rw [hcol x hxu] at hx; exact Or.inl hx
  refine
    { src := ⟨I.src.1, ?_⟩, white_top := ?_, fin := ?_, dom := ?_,
      q_nodup := I.q_nodup, q_iff := ?_, cur_gray := ?_,
      not_goal := ?_, edge := ?_, mono_q := ?_, mono_cur := ?_,
      pred := ?_, first := ?_, pend := ?_ }
  · show Function.update st.color u black_color s ≠ white_color
    by_cases hsu : s = u
    · subst hsu; rw [hcolu]; decide
    · rw [hcol s hsu]; exact I.src.2
  · intro x hxG hc
    have hxu : x ≠ u := by
      rintro rfl
      change Function.update st.color x black_color x = white_color at hc
      rw [hcolu] at hc
      cases hc
    change Function.update st.color u black_color x = white_color at hc
    rw [hcol x hxu] at hc
    exact I.white_top x hxG hc
  · intro x hc
    exact I.fin x (hnw x hc)
  · intro x hc
    exact I.dom x (hnw x hc)
  · intro x
    show x ∈ st.Q ↔ Function.update st.color u black_color x = gray_color ∧ none ≠ some x
    rw [I.q_iff x]
    by_cases hxu : x = u
    · subst hxu
      rw [hcolu]
      simp
    · rw [hcol x hxu]
      have : (some u : Option V) ≠ some x := fun h => hxu (Option.some.inj h).symm
      simp [this]
  · intro u' hu'
    cases hu'
  · intro x hc
    rcases hcl x hc with hb | hb
    · exact I.not_goal x hb
    · cases hb; exact hugoal
  · intro x hx y hy
    have hx' : closed st (some u) x := by
      rcases hx with hb | hb
      · exact hcl x hb
      · cases hb
    rcases I.edge x hx' y hy with ⟨_, h⟩ | h
    · cases h
    · exact Or.inr h
  · intro x hx hxG y hy
    have hx' : closed st (some u) x := by
      rcases hx with hb | hb
      · exact hcl x hb
      · cases hb
    exact I.mono_q x hx' hxG y hy
  · intro u' hu'
    cases hu'
  · intro x hc hxs
    obtain ⟨h1, h2, h3⟩ := I.pred x (hnw x hc) hxs
    refine ⟨Or.inl ?_, h2, h3⟩
    rcases h1 with hb | hb
    · show Function.update st.color u black_color _ = black_color
      by_cases hpu : st.predecessor x = u
      · rw [hpu, hcolu]
      · rw [hcol _ hpu]; exact hb
    · have : st.predecessor x = u := (Option.some.inj hb).symm
      show Function.update st.color u black_color _ = black_color
      rw [this, hcolu]
  · intro hsg x hxs
    exfalso
    change Function.update st.color u black_color s = gray_color at hsg
    have hsu : s ≠ u := by
      rintro rfl
      rw [hcolu] at hsg
      cases hsg
    rw [hcol s hsu] at hsg
    rcases I.first hsg u (Ne.symm hsu) with h | ⟨h, _⟩
    · exact hunw h
    · exact hsu (Option.some.inj h).symm
  · intro y hy
    cases hy

theorem Inv.expand_step (hA : Admits G s) {st : astar_state V α} (I : Inv G s goal st none [])
    (hQ : st.Q ≠ []) (hgoal : G.top st.cost st.Q ≠ goal) :
    Inv G s goal (expand G (G.top st.cost st.Q)
        { st with Q := st.Q.erase (G.top st.cost st.Q) }) none [] ∧
      (∀ x, st.color x = black_color →
        (expand G (G.top st.cost st.Q)
          { st with Q := st.Q.erase (G.top st.cost st.Q) }).color x = black_color) ∧
      (expand G (G.top st.cost st.Q)
          { st with Q := st.Q.erase (G.top st.cost st.Q) }).color (G.top st.cost st.Q) =
        black_color := by
  obtain ⟨I2, hb⟩ := Inv.fold hA _ _ (I.pop hA hQ hgoal)
  refine ⟨I2.finish, ?_, ?_⟩
  · intro x hx
    simp only [FastestPath.expand]
    by_cases hxu : x = G.top st.cost st.Q
    · rw [hxu, Function.update_same]
    · rw [Function.update_noteq hxu]
      exact (hb x).2 hx
  · simp only [FastestPath.expand]
    rw [Function.update_same]

theorem Inv.init (G : astar_graph V α) (s goal : V) :
    Inv G s goal (astar_init G s) none [] := by
  have hcol : ∀ x, (astar_init G s).color x ≠ white_color → x = s := by
    intro x hx
    by_contra hxs
    exact hx (by simp [astar_init, Function.update_noteq hxs])
  have hcols : (astar_init G s).color s = gray_color := by simp [astar_init]
  have hnb : ∀ x, (astar_init G s).color x ≠ black_color := by
    intro x
    by_cases hxs : x = s
    · subst hxs; rw [hcols]; decide
    · simp [astar_init, Function.update_noteq hxs]
  have hncl : ∀ x, ¬ closed (astar_init G s) none x := by
    rintro x (h | h)
    · exact hnb x h
    · cases h
  refine
    { src := ⟨by simp [astar_init], by rw [hcols]; decide⟩, white_top := ?_, fin := ?_,
      dom := fun x hx => Or.inl (hcol x hx), q_nodup := List.nodup_singleton s, q_iff := ?_,
      cur_gray := ?_, not_goal := fun x hx => absurd hx (hnb x),
      edge := fun x hx => absurd hx (hncl x), mono_q := fun x hx => absurd hx (hncl x),
      mono_cur := ?_, pred := fun x hx hxs => absurd (hcol x hx) hxs, first := ?_,
      pend := ?_ }
  · intro x hxG hc
    have hxs : x ≠ s := by
      rintro rfl
      rw [hcols] at hc
      cases hc
    simp [astar_init, Function.update_noteq hxs, hxG]
  · intro x hx
    have := hcol x hx
    subst this
    exact ⟨0, le_refl _, by simp [astar_init], by simp [astar_init]⟩
  · intro x
    show x ∈ [s] ↔ _
    rw [List.mem_singleton]
    constructor
    · rintro rfl
      exact ⟨hcols, by simp⟩
    · rintro ⟨h, -⟩
      exact hcol x (by rw [h]; decide)
  · intro u hu
    cases hu
  · intro u hu
    cases hu
  · intro _ x hxs
    left
    simp [astar_init, Function.update_noteq hxs]
  · intro y hy
    cases hy

end Generic

end FastestPath


namespace FastestPath

open default_color_type

/-! ## The search: result of the loop -/

section Loop

set_option linter.unusedSectionVars false

variable {V : Type} [DecidableEq V] {α : Type} [LinearOrderedCommRing α]
variable {G : astar_graph V α} {s goal : V}

theorem bfs_loop_sound (hA : Admits G s) : ∀ (fuel : Nat) (st : astar_state V α)
    (b : Bool) (st' : astar_state V α),
    Inv G s goal st none [] → bfs_loop G goal fuel st = some (b, st') →
    (b = true ∧ found_state G s goal st') ∨ (b = false ∧ exhausted_state G s goal st')
  | 0, st, b, st', _, h => by simp [bfs_loop] at h
  | fuel + 1, st, b, st', I, h => by
    rw [bfs_loop] at h
    by_cases hQ : st.Q = []
    · rw [if_pos hQ] at h
      simp only [Option.some.injEq, Prod.mk.injEq] at h
      obtain ⟨rfl, rfl⟩ := h
      exact Or.inr ⟨rfl, I, hQ⟩
    · rw [if_neg hQ] at h
      by_cases hg : G.top st.cost st.Q = goal
      · simp only [hg, if_true, Option.some.injEq, Prod.mk.injEq] at h
        obtain ⟨rfl, rfl⟩ := h
        refine Or.inl ⟨rfl, st, I, ?_, ?_, rfl⟩
        · rw [← hg]; exact hA.top_mem _ _ hQ
        · intro y hy
          rw [← hg]; exact hA.top_le _ _ y hy
      · simp only [hg, if_false] at h
        exact bfs_loop_sound hA fuel _ b st' (I.expand_step hA hQ hg).1 h

theorem bfs_loop_terminates (hA : Admits G s) (U : Finset V)
    (hU : ∀ v, (v = s ∨ G.vertices v = true) → v ∈ U) :
    ∀ (fuel : Nat) (st : astar_state V α), Inv G s goal st none [] →
      (U.filter (fun v => st.color v ≠ black_color)).card < fuel →
      ∃ r, bfs_loop G goal fuel st = some r
  | 0, st, _, h => absurd h (Nat.not_lt_zero _)
  | fuel + 1, st, I, h => by
    rw [bfs_loop]
    by_cases hQ : st.Q = []
    · rw [if_pos hQ]; exact ⟨_, rfl⟩
    · rw [if_neg hQ]
      by_cases hg : G.top st.cost st.Q = goal
      · simp only [hg, if_true]; exact ⟨_, rfl⟩
      · simp only [hg, if_false]
        obtain ⟨I2, hb, hu⟩ := I.expand_step hA hQ hg
        refine bfs_loop_terminates hA U hU fuel _ I2 ?_
        have hmem := hA.top_mem st.cost st.Q hQ
        have hug : st.color (G.top st.cost st.Q) = gray_color := ((I.q_iff _).1 hmem).1
        have hlt : (U.filter (fun v => (expand G (G.top st.cost st.Q)
              { st with Q := st.Q.erase (G.top st.cost st.Q) }).color v ≠ black_color)).card <
            (U.filter (fun v => st.color v ≠ black_color)).card := by
          apply Finset.card_lt_card
          constructor
          · intro x hx
            rw [Finset.mem_filter] at hx ⊢
            exact ⟨hx.1, fun h => hx.2 (hb x h)⟩
          · intro hsub
            have hin : G.top st.cost st.Q ∈ U.filter (fun v => st.color v ≠ black_color) := by
              rw [Finset.mem_filter]
              refine ⟨hU _ (I.dom _ (by rw [hug]; decide)), ?_⟩
              rw [hug]; decide
            have := hsub hin
            rw [Finset.mem_filter] at this
            exact this.2 hu
        omega

theorem Walk.nonneg (hA : Admits G s) {x y : V} {c : α} (h : Walk G x y c) : 0 ≤ c := by
  induction h with
  | nil => exact le_refl _
  | @snoc y z c _ _ ih => have := hA.weight_nonneg y z; linarith

theorem Walk.live (hA : Admits G s) {y : V} {c : α} (h : Walk G s y c) :
    y = s ∨ G.vertices y = true := by
  induction h with
  | nil => exact Or.inl rfl
  | snoc _ hz ih => exact Or.inr (hA.targets_in _ _ ih hz)

/-- Along any walk from a black start vertex: the end is black with a distance not
above the weight of the walk, or some queued vertex has a cost not above the weight
plus the heuristic of the end. -/
theorem Inv.walk_bound (hA : Admits G s) {st : astar_state V α}
    (I : Inv G s goal st none []) (hs : st.color s = black_color) {x : V} {c : α}
    (h : Walk G s x c) :
    (st.color x = black_color ∧ st.distance x ≤ (c : WithTop α)) ∨
      (G.vertices x = true ∧ ∃ y ∈ st.Q, st.cost y ≤ ((c + G.h x : α) : WithTop α)) := by
  induction h with
  | nil =>
    left
    refine ⟨hs, ?_⟩
    rw [I.src.1]
    exact_mod_cast le_refl (0 : α)
  | @snoc x z c hwalk hz ih =>
    have hlive := Walk.live hA hwalk
    have hzG : G.vertices z = true := hA.targets_in _ _ hlive hz
    rcases ih with ⟨hxb, hxd⟩ | ⟨hxG, y, hy, hcy⟩
    · have hdz : st.distance z ≤ ((c + G.weight x z : α) : WithTop α) := by
        rcases I.edge x (Or.inl hxb) z hz with ⟨h, _⟩ | h
        · cases h
        · refine le_trans h ?_
          rw [WithTop.coe_add]
          exact add_le_add_right hxd _
      have hznw : st.color z ≠ white_color := by
        intro hw
        rw [I.white_top z hzG hw] at hdz
        exact absurd hdz (by simp)
      cases hcz : st.color z with
      | white_color => exact absurd hcz hznw
      | black_color => exact Or.inl ⟨rfl, hdz⟩
      | gray_color =>
        right
        refine ⟨hzG, z, (I.q_iff z).2 ⟨hcz, by simp⟩, ?_⟩
        obtain ⟨dz, -, hdz', hcz'⟩ := I.fin z hznw
        rw [hcz']
        rw [hdz'] at hdz
        have : dz ≤ c + G.weight x z := by exact_mod_cast hdz
        have : dz + G.h z ≤ c + G.weight x z + G.h z := by linarith
        exact_mod_cast this
    · right
      refine ⟨hzG, y, hy, le_trans hcy ?_⟩
      have := hA.consistent x z hxG hz
      have : c + G.h x ≤ c + G.weight x z + G.h z := by linarith
      exact_mod_cast this

/-- Optimality: the distance of the goal in the state of success is at most the weight
of every walk from the start vertex to the goal. -/
theorem found_state.optimal (hA : Admits G s) {st : astar_state V α}
    (hf : found_state G s goal st) {c : α} (h : Walk G s goal c) :
    st.distance goal ≤ (c : WithTop α) := by
  obtain ⟨st0, I, hgQ, hmin, rfl⟩ := hf
  show st0.distance goal ≤ _
  have hgg : st0.color goal = gray_color := ((I.q_iff goal).1 hgQ).1
  by_cases hsg : st0.color s = gray_color
  · have hgs : goal = s := by
      by_contra hne
      rcases I.first hsg goal hne with h | ⟨h, _⟩
      · rw [h] at hgg; cases hgg
      · cases h
    rw [hgs, I.src.1]
    exact_mod_cast Walk.nonneg hA h
  · have hsb : st0.color s = black_color := by
      cases hcs : st0.color s with
      | white_color => exact absurd hcs I.src.2
      | gray_color => exact absurd hcs hsg
      | black_color => rfl
    rcases I.walk_bound hA hsb h with ⟨hb, _⟩ | ⟨_, y, hy, hcy⟩
    · rw [hb] at hgg; cases hgg
    · obtain ⟨dg, -, hdg, hcg⟩ := I.fin goal (by rw [hgg]; decide)
      have h1 := le_trans (hmin y hy) hcy
      rw [hcg] at h1
      rw [hdg]
      have : dg + G.h goal ≤ c + G.h goal := by exact_mod_cast h1
      have : dg ≤ c := by linarith
      exact_mod_cast this

/-- When the queue runs empty every vertex a walk from the start reaches is black. -/
theorem exhausted_state.black (hA : Admits G s) {st : astar_state V α}
    (he : exhausted_state G s goal st) {x : V} {c : α} (h : Walk G s x c) :
    st.color x = black_color := by
  obtain ⟨I, hQ⟩ := he
  have hng : ∀ v, st.color v ≠ gray_color := by
    intro v hv
    have := (I.q_iff v).2 ⟨hv, by simp⟩
    rw [hQ] at this
    cases this
  induction h with
  | nil =>
    cases hcs : st.color s with
    | white_color => exact absurd hcs I.src.2
    | gray_color => exact absurd hcs (hng _)
    | black_color => rfl
  | @snoc x z c hwalk hz ih =>
    have hzG : G.vertices z = true := hA.targets_in _ _ (Walk.live hA hwalk) hz
    obtain ⟨dx, -, hdx, -⟩ := I.fin x (by rw [ih]; decide)
    cases hcz : st.color z with
    | white_color =>
      exfalso
      rcases I.edge x (Or.inl ih) z hz with ⟨h, _⟩ | h
      · cases h
      · rw [I.white_top z hzG hcz, hdx, ← WithTop.coe_add] at h
        exact absurd h (by simp)
    | gray_color => exact absurd hcz (hng _)
    | black_color => rfl

theorem exhausted_state.unreachable (hA : Admits G s) {st : astar_state V α}
    (he : exhausted_state G s goal st) {c : α} : ¬ Walk G s goal c := fun h =>
  he.1.not_goal goal (he.black hA h) rfl

end Loop

end FastestPath


namespace FastestPath

open default_color_type

/-! ## The predecessor chain -/

section Chain

set_option linter.unusedSectionVars false

variable {V : Type} [DecidableEq V] {α : Type} [LinearOrderedCommRing α]
variable {G : astar_graph V α} {s goal : V}

/-- In a state that satisfies the invariant, the predecessor map leads from every
discovered vertex back to the start vertex, without repetition, along edges of the
graph whose weights add up to the distance of the vertex. -/
theorem Inv.chain (hA : Admits G s) (U : Finset V)
    (hU : ∀ v, (v = s ∨ G.vertices v = true) → v ∈ U)
    {st : astar_state V α} (I : Inv G s goal st none []) :
    ∀ (n : Nat) (v : V), st.color v ≠ white_color →
      (U.filter (fun x => st.distance x < st.distance v)).card = n →
      ∃ tl, pred_walk st.predecessor s v tl ∧ (v :: tl).Nodup ∧
        (∀ x ∈ v :: tl, st.color x ≠ white_color ∧ st.distance x ≤ st.distance v) ∧
        List.Chain (fun a b => a ∈ G.out_targets b) v tl ∧
        st.distance v = ((chain_cost G.weight v tl : α) : WithTop α) := by
  intro n
  induction n using Nat.strong_induction_on with
  | _ n ih =>
    intro v hv hn
    by_cases hvs : v = s
    · subst hvs
      refine ⟨[], rfl, List.nodup_singleton _, ?_, List.Chain.nil, ?_⟩
      · intro x hx
        rw [List.mem_singleton] at hx
        subst hx
        exact ⟨hv, le_refl _⟩
      · rw [I.src.1]; simp [chain_cost]
    · obtain ⟨hcl, hmem, hd⟩ := I.pred v hv hvs
      have hpb : st.color (st.predecessor v) = black_color := by
        rcases hcl with h | h
        · exact h
        · cases h
      have hpnw : st.color (st.predecessor v) ≠ white_color := by rw [hpb]; decide
      obtain ⟨dp, hdp0, hdp, -⟩ := I.fin _ hpnw
      have hw0 := hA.weight_nonneg (st.predecessor v) v
      have hdv : st.distance v = ((dp + G.weight (st.predecessor v) v : α) : WithTop α) := by
        rw [hd, hdp, WithTop.coe_add]
      by_cases hps : st.predecessor v = s
      · refine ⟨[s], ⟨hvs, hps, rfl⟩, ?_, ?_, ?_, ?_⟩
        · simp [hvs]
        · intro x hx
          rcases List.mem_cons.1 hx with h | h
          · subst h; exact ⟨hv, le_refl _⟩
          · rw [List.mem_singleton] at h
            subst h
            refine ⟨I.src.2, ?_⟩
            rw [I.src.1, hdv]
            have : (0 : α) ≤ dp + G.weight (st.predecessor v) v := by linarith
            exact_mod_cast this
        · rw [hps] at hmem
          exact List.Chain.cons hmem List.Chain.nil
        · rw [hdv]
          rw [hps] at hdp ⊢
          rw [I.src.1] at hdp
          have : dp = 0 := by
            have : ((0 : α) : WithTop α) = dp := by exact_mod_cast hdp
            exact_mod_cast this.symm
          subst this
          simp [chain_cost]
      · have hpG : G.vertices (st.predecessor v) = true := by
          rcases I.dom _ hpnw with h | h
          · exact absurd h hps
          · exact h
        have hwpos := hA.weight_pos _ _ hpG hmem
        have hlt : st.distance (st.predecessor v) < st.distance v := by
          rw [hdp, hdv]
          have : dp < dp + G.weight (st.predecessor v) v := by linarith
          exact_mod_cast this
        have hcard : (U.filter (fun x => st.distance x < st.distance (st.predecessor v))).card
            < n := by
          rw [← hn]
          apply Finset.card_lt_card
          constructor
          · intro x hx
            rw [Finset.mem_filter] at hx ⊢
            exact ⟨hx.1, lt_trans hx.2 hlt⟩
          · intro hsub
            have hin : st.predecessor v ∈
                U.filter (fun x => st.distance x < st.distance v) := by
              rw [Finset.mem_filter]
              exact ⟨hU _ (Or.inr hpG), hlt⟩
            have := hsub hin
            rw [Finset.mem_filter] at this
            exact lt_irrefl _ this.2
        obtain ⟨tl, h1, h2, h3, h4, h5⟩ := ih _ hcard (st.predecessor v) hpnw rfl
        refine ⟨st.predecessor v :: tl, ⟨hvs, rfl, h1⟩, ?_, ?_, List.Chain.cons hmem h4, ?_⟩
        · refine List.nodup_cons.2 ⟨?_, h2⟩
          intro hin
          have := (h3 v hin).2
          exact absurd (lt_of_le_of_lt this hlt) (lt_irrefl _)
        · intro x hx
          rcases List.mem_cons.1 hx with h | h
          · subst h; exact ⟨hv, le_refl _⟩
          · exact ⟨(h3 x h).1, le_trans (h3 x h).2 (le_of_lt hlt)⟩
        · rw [hdv]
          rw [hdp] at h5
          have : dp = chain_cost G.weight (st.predecessor v) tl := by exact_mod_cast h5
          rw [this]
          simp only [chain_cost]
          rw [add_comm]

/-- The walk of the predecessor map is a walk of the graph, read backwards. -/
theorem pred_walk.walk {predecessor : V → V} : ∀ (tl : List V) (v : V),
    pred_walk predecessor s v tl → List.Chain (fun a b => a ∈ G.out_targets b) v tl →
    Walk G s v (chain_cost G.weight v tl)
  | [], v, h, _ => by
    have : v = s := h
    subst this
    exact Walk.nil
  | y :: r, v, h, hc => by
    obtain ⟨-, -, h3⟩ := h
    rw [List.chain_cons] at hc
    have hw := pred_walk.walk r y h3 hc.2
    have := Walk.snoc hw hc.1
    simp only [chain_cost]
    rw [add_comm]
    exact this

/-- The loop of `solve` follows the walk of the predecessor map when the fuel allows. -/
theorem walk_back_of_pred_walk {predecessor : V → V} : ∀ (tl : List V) (u : V)
    (sol : List V) (fuel : Nat), pred_walk predecessor s u tl → tl.length < fuel →
    ∃ sol', walk_back predecessor s fuel u sol = some sol'
  | [], u, sol, 0, _, h => absurd h (Nat.not_lt_zero _)
  | [], u, sol, fuel + 1, h, _ => by
    have : u = s := h
    exact ⟨sol, by simp [walk_back, this]⟩
  | y :: r, u, sol, 0, _, h => absurd h (Nat.not_lt_zero _)
  | y :: r, u, sol, fuel + 1, h, hlen => by
    obtain ⟨h1, h2, h3⟩ := h
    have hlen' : r.length < fuel := by
      simp only [List.length_cons] at hlen
      omega
    obtain ⟨sol', hs⟩ := walk_back_of_pred_walk r y (sol.insert u) fuel h3 hlen'
    exact ⟨sol', by rw [walk_back, if_neg h1, h2]; exact hs⟩

/-- Whatever fuel it ran on, the loop of `solve` inserts the vertices of the walk of
the predecessor map other than the source. -/
theorem walk_back_mem {predecessor : V → V} : ∀ (tl : List V) (u : V)
    (sol sol' : List V) (fuel : Nat), pred_walk predecessor s u tl →
    walk_back predecessor s fuel u sol = some sol' →
    ∀ x, x ∈ sol' ↔ x ∈ sol ∨ (x ∈ u :: tl ∧ x ≠ s)
  | _, u, sol, sol', 0, _, h => by simp [walk_back] at h
  | [], u, sol, sol', fuel + 1, h, hs => by
    have hu : u = s := h
    rw [walk_back, if_pos hu] at hs
    cases hs
    intro x
    constructor
    · exact Or.inl
    · rintro (h | ⟨h1, h2⟩)
      · exact h
      · rw [List.mem_singleton] at h1
        exact absurd (h1.trans hu) h2
  | y :: r, u, sol, sol', fuel + 1, h, hs => by
    obtain ⟨h1, h2, h3⟩ := h
    rw [walk_back, if_neg h1, h2] at hs
    have ih := walk_back_mem r y (sol.insert u) sol' fuel h3 hs
    intro x
    rw [ih x, List.mem_insert_iff, List.mem_cons (a := x) (b := u)]
    constructor
    · rintro ((h | h) | ⟨h, h'⟩)
      · exact Or.inr ⟨Or.inl h, h ▸ h1⟩
      · exact Or.inl h
      · exact Or.inr ⟨Or.inr h, h'⟩
    · rintro (h | ⟨h | h, h'⟩)
      · exact Or.inl (Or.inr h)
      · exact Or.inl (Or.inl h)
      · exact Or.inr ⟨h, h'⟩

/-- Every vertex of the walk of the predecessor map but the last differs from the
source, and the last one is the source. -/
theorem pred_walk.last {predecessor : V → V} : ∀ (tl : List V) (u : V),
    pred_walk predecessor s u tl →
    (u :: tl).getLast? = some s ∧ ∀ x ∈ (u :: tl).dropLast, x ≠ s
  | [], u, h => by
    have : u = s := h
    simp [this]
  | y :: r, u, h => by
    obtain ⟨h1, -, h3⟩ := h
    obtain ⟨ih1, ih2⟩ := pred_walk.last r y h3
    constructor
    · rw [List.getLast?_cons_cons]; exact ih1
    · intro x hx
      rw [List.dropLast_cons₂, List.mem_cons] at hx
      rcases hx with h | h
      · rw [h]; exact h1
      · exact ih2 x h

end Chain

end FastestPath


namespace FastestPath

/-! ## Machine arithmetic -/

theorem abs_to_int (n : Nat) :
    |to_int n| = if n % 2 ^ 32 < 2 ^ 31 then ((n % 2 ^ 32 : Nat) : Int)
      else 2 ^ 32 - ((n % 2 ^ 32 : Nat) : Int) := by
  unfold to_int
  split_ifs with h
  · exact abs_of_nonneg (by omega)
  · rw [abs_of_nonpos (by omega)]
    ring

theorem abs_diff_self (a : Nat) : abs_diff a a = 0 := by
  unfold abs_diff to_int size_sub
  have : (a % 2 ^ 64 + (2 ^ 64 - a % 2 ^ 64)) % 2 ^ 64 = 0 := by omega
  rw [this]
  simp

/-- Moving the second argument by one changes `abs_diff` by at most one, whatever the
first argument is. -/
theorem abs_diff_step (g a : Nat) :
    abs_diff g a ≤ abs_diff g (a + 1) + 1 ∧ abs_diff g (a + 1) ≤ abs_diff g a + 1 := by
  unfold abs_diff
  rw [abs_to_int, abs_to_int]
  unfold size_sub
  have key : (g % 2 ^ 64 + (2 ^ 64 - a % 2 ^ 64)) % 2 ^ 64 =
      ((g % 2 ^ 64 + (2 ^ 64 - (a + 1) % 2 ^ 64)) % 2 ^ 64 + 1) % 2 ^ 64 := by omega
  generalize (g % 2 ^ 64 + (2 ^ 64 - (a + 1) % 2 ^ 64)) % 2 ^ 64 = n at key
  rw [key]
  constructor <;> split_ifs <;> omega

/-- On coordinates that fit an `int` the call `abs(a - b)` is the absolute value of
the difference. -/
theorem abs_diff_eq (a b : Nat) (ha : a < 2 ^ 31) (hb : b < 2 ^ 31) :
    abs_diff a b = |(a : Int) - (b : Int)| := by
  unfold abs_diff
  rw [abs_to_int]
  unfold size_sub
  rcases le_total a b with hab | hab
  · rw [abs_of_nonpos (by omega)]
    split_ifs <;> omega
  · rw [abs_of_nonneg (by omega)]
    split_ifs <;> omega

theorem abs_diff_succ_left (a : Nat) : abs_diff (a + 1) a = 1 := by
  unfold abs_diff to_int size_sub
  have : ((a + 1) % 2 ^ 64 + (2 ^ 64 - a % 2 ^ 64)) % 2 ^ 64 = 1 := by omega
  rw [this]
  simp

theorem abs_diff_succ_right (a : Nat) : abs_diff a (a + 1) = 1 := by
  unfold abs_diff to_int size_sub
  have : (a % 2 ^ 64 + (2 ^ 64 - (a + 1) % 2 ^ 64)) % 2 ^ 64 = 2 ^ 64 - 1 := by omega
  rw [this]
  norm_num

/-- An orthogonal step is not taken for a diagonal one, wrap-around or not. -/
theorem orth_adjacent_not_diag {a b : vertex_descriptor} (h : orth_adjacent a b) :
    abs_diff a.1 b.1 ≠ abs_diff a.2 b.2 := by
  unfold orth_adjacent at h
  rcases h with ⟨h1, h2 | h2⟩ | ⟨h1, h2 | h2⟩
  · rw [h1, ← h2, abs_diff_self, abs_diff_succ_right]; decide
  · rw [h1, ← h2, abs_diff_self, abs_diff_succ_left]; decide
  · rw [h1, ← h2, abs_diff_self, abs_diff_succ_right]; decide
  · rw [h1, ← h2, abs_diff_self, abs_diff_succ_left]; decide

/-! ## The cost of a step -/

theorem cwConstant_cast : ((cwConstant : Int) : ℝ) = 5 := by simp [cwConstant]

theorem timeWeight_nonneg (a b : vertex_descriptor) (el : List Nat) :
    0 ≤ maze.timeWeight a b el := by
  unfold maze.timeWeight
  simp only [cwConstant_cast]
  split_ifs with h1 h2 h3 h4 h5 h6
  · exact le_refl _
  · norm_num
  · have : (0 : ℝ) < ((elevation_at el b - elevation_at el a : Int) : ℝ) := by exact_mod_cast h4
    have := Real.sqrt_nonneg (1 + 0.003937 * ((elevation_at el b - elevation_at el a : Int) : ℝ) ^ 2)
    nlinarith
  · have : ((elevation_at el b - elevation_at el a : Int) : ℝ) ≤ 0 := by
      exact_mod_cast not_lt.1 h4
    have := Real.sqrt_nonneg (1 + 0.003937 * ((elevation_at el b - elevation_at el a : Int) : ℝ) ^ 2)
    nlinarith
  · norm_num
  · have : (0 : ℝ) < ((elevation_at el b - elevation_at el a : Int) : ℝ) := by exact_mod_cast h6
    have := Real.sqrt_nonneg (2 + 0.003937 * ((elevation_at el b - elevation_at el a : Int) : ℝ) ^ 2)
    nlinarith
  · have : ((elevation_at el b - elevation_at el a : Int) : ℝ) ≤ 0 := by
      exact_mod_cast not_lt.1 h6
    have := Real.sqrt_nonneg (2 + 0.003937 * ((elevation_at el b - elevation_at el a : Int) : ℝ) ^ 2)
    nlinarith

theorem one_le_sqrt_slope (d : ℝ) : 1 ≤ Real.sqrt (1 + 0.003937 * d ^ 2) := by
  rw [Real.le_sqrt' (by norm_num)]
  nlinarith [sq_nonneg d]

/-- A step that is not diagonal between cells of non-zero elevation costs at least 1. -/
theorem one_le_timeWeight {a b : vertex_descriptor} {el : List Nat}
    (hd : abs_diff a.1 b.1 ≠ abs_diff a.2 b.2)
    (ha : elevation_at el a ≠ 0) (hb : elevation_at el b ≠ 0) :
    1 ≤ maze.timeWeight a b el := by
  unfold maze.timeWeight
  simp only [cwConstant_cast, hd, decide_False, Bool.not_false, if_true, ha, hb, or_self,
    if_false]
  split_ifs with h3 h4
  · exact le_refl _
  · have : (0 : ℝ) < ((elevation_at el b - elevation_at el a : Int) : ℝ) := by exact_mod_cast h4
    have := one_le_sqrt_slope ((elevation_at el b - elevation_at el a : Int) : ℝ)
    nlinarith
  · have : ((elevation_at el b - elevation_at el a : Int) : ℝ) ≤ 0 := by
      exact_mod_cast not_lt.1 h4
    have := one_le_sqrt_slope ((elevation_at el b - elevation_at el a : Int) : ℝ)
    nlinarith

end FastestPath


namespace FastestPath

/-! ## `make_maze` -/

theorem make_maze_step_pos (el : List Nat) (acc : maze × Nat) (io : Nat × Nat)
    (hf : is_flagged io.2 (el.getD io.1 0) = true) :
    (make_maze_step el acc io).1.m_grid = acc.1.m_grid ∧
    (make_maze_step el acc io).1.m_elev = acc.1.m_elev ∧
    (make_maze_step el acc io).1.m_solution = acc.1.m_solution ∧
    (make_maze_step el acc io).1.m_barriers =
      acc.1.m_barriers.insert (acc.1.m_grid.vertex io.1) ∧
    (make_maze_step el acc io).2 = acc.2 + 1 := by
  unfold make_maze_step
  rw [if_pos hf]
  exact ⟨rfl, rfl, rfl, rfl, rfl⟩

theorem make_maze_step_neg (el : List Nat) (acc : maze × Nat) (io : Nat × Nat)
    (hf : ¬ is_flagged io.2 (el.getD io.1 0) = true) :
    make_maze_step el acc io = acc := by
  unfold make_maze_step
  rw [if_neg hf]

theorem make_maze_fold (el : List Nat) : ∀ (l : List (Nat × Nat)) (acc : maze × Nat),
    (l.foldl (make_maze_step el) acc).1.m_grid = acc.1.m_grid ∧
    (l.foldl (make_maze_step el) acc).1.m_elev = acc.1.m_elev ∧
    (l.foldl (make_maze_step el) acc).1.m_solution = acc.1.m_solution ∧
    (∀ v, v ∈ (l.foldl (make_maze_step el) acc).1.m_barriers ↔
      v ∈ acc.1.m_barriers ∨
        ∃ io ∈ l, is_flagged io.2 (el.getD io.1 0) = true ∧ v = acc.1.m_grid.vertex io.1) ∧
    (l.foldl (make_maze_step el) acc).2 =
      acc.2 + l.countP (fun io => is_flagged io.2 (el.getD io.1 0))
  | [], acc => by simp
  | io :: l, acc => by
    obtain ⟨h1, h2, h3, h4, h5⟩ := make_maze_fold el l (make_maze_step el acc io)
    rw [List.foldl_cons]
    by_cases hf : is_flagged io.2 (el.getD io.1 0) = true
    · obtain ⟨s1, s2, s3, s4, s5⟩ := make_maze_step_pos el acc io hf
      refine ⟨h1.trans s1, h2.trans s2, h3.trans s3, ?_, ?_⟩
      · intro v
        rw [h4 v, s4, s1]
        simp only [List.mem_insert_iff, List.mem_cons, exists_eq_or_imp]
        constructor
        · rintro ((h | h) | h)
          · exact Or.inr (Or.inl ⟨hf, h⟩)
          · exact Or.inl h
          · exact Or.inr (Or.inr h)
        · rintro (h | ⟨_, h⟩ | h)
          · exact Or.inl (Or.inr h)
          · exact Or.inl (Or.inl h)
          · exact Or.inr h
      · rw [h5, s5]
        simp only [List.countP_cons, hf, if_true]
        omega
    · have hstep := make_maze_step_neg el acc io hf
      rw [hstep] at h1 h2 h3 h4 h5 ⊢
      refine ⟨h1, h2, h3, ?_, ?_⟩
      · intro v
        rw [h4 v]
        simp only [List.mem_cons, exists_eq_or_imp]
        constructor
        · rintro (h | h)
          · exact Or.inl h
          · exact Or.inr (Or.inr h)
        · rintro (h | ⟨h, _⟩ | h)
          · exact Or.inl h
          · exact absurd h hf
          · exact Or.inr h
      · rw [h5]
        have hf' : is_flagged io.2 (el.getD io.1 0) = false := by
          cases h : is_flagged io.2 (el.getD io.1 0)
          · rfl
          · exact absurd h hf
        simp only [List.countP_cons, hf', Bool.false_eq_true, if_false, Nat.add_zero]

theorem make_maze_grid (x y : Nat) (ov el : List Nat) :
    (make_maze x y ov el).1.m_grid = ⟨IMAGE_DIM, IMAGE_DIM⟩ :=
  (make_maze_fold el ov.enum _).1

theorem make_maze_elev (x y : Nat) (ov el : List Nat) :
    (make_maze x y ov el).1.m_elev = el :=
  (make_maze_fold el ov.enum _).2.1

theorem make_maze_solution (x y : Nat) (ov el : List Nat) :
    (make_maze x y ov el).1.m_solution = [] :=
  (make_maze_fold el ov.enum _).2.2.1

theorem make_maze_count (x y : Nat) (ov el : List Nat) :
    (make_maze x y ov el).2 = ov.enum.countP (fun io => is_flagged io.2 (el.getD io.1 0)) := by
  have := (make_maze_fold el ov.enum (maze.new IMAGE_DIM IMAGE_DIM el, 0)).2.2.2.2
  simpa [make_maze] using this

/-- A cell is in the barrier set of `make_maze` exactly when it is the grid vertex of
a flagged linear index. -/
theorem mem_barriers_make_maze (x y : Nat) (ov el : List Nat) (v : vertex_descriptor) :
    v ∈ (make_maze x y ov el).1.m_barriers ↔
      ∃ i, i < ov.length ∧ is_flagged (ov.getD i 0) (el.getD i 0) = true ∧
        v = (i % IMAGE_DIM, i / IMAGE_DIM % IMAGE_DIM) := by
  have := (make_maze_fold el ov.enum (maze.new IMAGE_DIM IMAGE_DIM el, 0)).2.2.2.1 v
  unfold make_maze
  rw [this]
  simp only [maze.new, List.not_mem_nil, false_or, grid.vertex, Nat.div_one]
  constructor
  · rintro ⟨⟨i, o⟩, hio, hf, hv⟩
    rw [List.mk_mem_enum_iff_getElem?] at hio
    have hlt : i < ov.length := by
      by_contra hge
      rw [List.getElem?_eq_none (not_lt.1 hge)] at hio
      cases hio
    refine ⟨i, hlt, ?_, hv⟩
    have : ov.getD i 0 = o := by
      rw [List.getD_eq_getElem?_getD, hio]; rfl
    rw [this]
    exact hf
  · rintro ⟨i, hlt, hf, hv⟩
    refine ⟨(i, ov.getD i 0), ?_, hf, hv⟩
    rw [List.mk_mem_enum_iff_getElem?, List.getD_eq_getElem?_getD,
      List.getElem?_eq_getElem hlt]
    rfl

/-- For maps of full length, the barrier test of a cell of the grid is the flag test
at its linear index. -/
theorem has_barrier_make_maze_iff (x y : Nat) (ov el : List Nat)
    (hov : ov.length = IMAGE_DIM * IMAGE_DIM) (cx cy : Nat)
    (hx : cx < IMAGE_DIM) (hy : cy < IMAGE_DIM) :
    (make_maze x y ov el).1.has_barrier (cx, cy) = true ↔
      is_flagged (ov.getD (cx + cy * IMAGE_DIM) 0) (el.getD (cx + cy * IMAGE_DIM) 0) = true := by
  unfold maze.has_barrier
  rw [decide_eq_true_iff, mem_barriers_make_maze]
  unfold IMAGE_DIM at *
  constructor
  · rintro ⟨i, hi, hf, hv⟩
    have h1 : cx = i % 2048 := congrArg Prod.fst hv
    have h2 : cy = i / 2048 % 2048 := congrArg Prod.snd hv
    have : cx + cy * 2048 = i := by omega
    rw [this]
    exact hf
  · intro hf
    refine ⟨cx + cy * 2048, by omega, hf, ?_⟩
    have h1 : (cx + cy * 2048) % 2048 = cx := by omega
    have h2 : (cx + cy * 2048) / 2048 % 2048 = cy := by omega
    rw [h1, h2]

theorem make_maze_well_formed (x y : Nat) (ov el : List Nat)
    (hov : ov.length = IMAGE_DIM * IMAGE_DIM) :
    (make_maze x y ov el).1.well_formed := by
  rintro ⟨cx, cy⟩ ⟨hin, hnb⟩
  rw [make_maze_grid] at hin
  simp only [grid.contains, Bool.and_eq_true, decide_eq_true_eq] at hin
  have hb := has_barrier_make_maze_iff x y ov el hov cx cy hin.1 hin.2
  rw [hnb] at hb
  have hf : ¬ is_flagged (ov.getD (cx + cy * IMAGE_DIM) 0)
      (el.getD (cx + cy * IMAGE_DIM) 0) = true := fun h => by
    have := hb.2 h
    cases this
  rw [make_maze_elev]
  unfold elevation_at
  have hmod : (cx + cy * IMAGE_DIM) % 2 ^ 64 = cx + cy * IMAGE_DIM := by
    unfold IMAGE_DIM at *
    omega
  simp only [hmod]
  intro h0
  apply hf
  unfold is_flagged
  have : el.getD (cx + cy * IMAGE_DIM) 0 = 0 := by exact_mod_cast h0
  rw [this]
  simp

/-- The count is the number of barrier cells when no two flagged indices share a cell of
the grid, that is when the override map has at most `IMAGE_DIM * IMAGE_DIM` entries. -/
theorem make_maze_fold_length (el : List Nat) : ∀ (l : List Nat) (k : Nat) (acc : maze × Nat),
    acc.1.m_grid = ⟨IMAGE_DIM, IMAGE_DIM⟩ → k + l.length ≤ IMAGE_DIM * IMAGE_DIM →
    (∀ v ∈ acc.1.m_barriers, ∃ j, j < k ∧ v = (j % IMAGE_DIM, j / IMAGE_DIM % IMAGE_DIM)) →
    acc.2 = acc.1.m_barriers.length →
    ((l.enumFrom k).foldl (make_maze_step el) acc).2 =
      ((l.enumFrom k).foldl (make_maze_step el) acc).1.m_barriers.length
  | [], k, acc, _, _, _, h => by simpa using h
  | o :: l, k, acc, hg, hk, hb, hl => by
    rw [List.enumFrom_cons, List.foldl_cons]
    simp only [List.length_cons] at hk
    by_cases hf : is_flagged o (el.getD k 0) = true
    · obtain ⟨s1, -, -, s4, s5⟩ := make_maze_step_pos el acc (k, o) hf
      have hnew : acc.1.m_grid.vertex k ∉ acc.1.m_barriers := by
        intro hin
        obtain ⟨j, hj, hv⟩ := hb _ hin
        rw [hg] at hv
        simp only [grid.vertex, Nat.div_one, Prod.mk.injEq] at hv
        unfold IMAGE_DIM at *
        omega
      apply make_maze_fold_length el l (k + 1)
      · exact s1.trans hg
      · omega
      · intro v hv
        rw [s4] at hv
        simp only [List.mem_insert_iff] at hv
        rcases hv with h | h
        · refine ⟨k, by omega, ?_⟩
          rw [h, hg]
          simp [grid.vertex]
        · obtain ⟨j, hj, hv⟩ := hb v h
          exact ⟨j, by omega, hv⟩
      · rw [s4, s5, List.length_insert_of_not_mem hnew, hl]
    · rw [make_maze_step_neg el acc (k, o) hf]
      apply make_maze_fold_length el l (k + 1) acc hg (by omega) _ hl
      intro v hv
      obtain ⟨j, hj, hv⟩ := hb v hv
      exact ⟨j, by omega, hv⟩

theorem make_maze_count_eq_length (x y : Nat) (ov el : List Nat)
    (hov : ov.length ≤ IMAGE_DIM * IMAGE_DIM) :
    (make_maze x y ov el).2 = (make_maze x y ov el).1.m_barriers.length := by
  unfold make_maze List.enum
  apply make_maze_fold_length el ov 0 _ rfl (by omega)
  · intro v hv
    simp [maze.new] at hv
  · simp [maze.new]

end FastestPath


namespace FastestPath

open default_color_type

/-! ## The filtered grid of the maze as a search graph -/

theorem mem_grid_out_targets (g : grid) (a b : vertex_descriptor)
    (ha : g.contains a = true) :
    b ∈ g.out_targets a ↔ orth_adjacent a b ∧ g.contains b = true := by
  obtain ⟨a1, a2⟩ := a
  obtain ⟨b1, b2⟩ := b
  simp only [grid.contains, Bool.and_eq_true, decide_eq_true_eq] at ha ⊢
  simp only [grid.out_targets, orth_adjacent, List.mem_append, List.mem_ite_nil_right,
    List.mem_singleton, Prod.mk.injEq, ne_eq]
  constructor
  · rintro (((h | h) | h) | h) <;> omega
  · rintro ⟨h, hb⟩
    omega

theorem search_graph_vertices (m : maze) (goal : vertex_descriptor)
    (top : (vertex_descriptor → WithTop ℝ) → List vertex_descriptor → vertex_descriptor)
    (v : vertex_descriptor) :
    (m.search_graph goal top).vertices v = true ↔ m.open_cell v := by
  simp [maze.search_graph, maze.open_cell]

theorem mem_search_graph_out_targets (m : maze) (goal : vertex_descriptor)
    (top : (vertex_descriptor → WithTop ℝ) → List vertex_descriptor → vertex_descriptor)
    (a b : vertex_descriptor) (ha : m.m_grid.contains a = true) :
    b ∈ (m.search_graph goal top).out_targets a ↔ orth_adjacent a b ∧ m.open_cell b := by
  simp only [maze.search_graph, List.mem_filter, mem_grid_out_targets _ _ _ ha,
    maze.open_cell, Bool.not_eq_true']
  tauto

theorem manhattan_heuristic_step (goal a b : vertex_descriptor) (h : orth_adjacent a b) :
    manhattan_heuristic goal a ≤ 1 + manhattan_heuristic goal b := by
  obtain ⟨a1, a2⟩ := a
  obtain ⟨b1, b2⟩ := b
  unfold manhattan_heuristic
  simp only [orth_adjacent] at h
  have key : abs_diff goal.1 a1 + abs_diff goal.2 a2 ≤
      1 + (abs_diff goal.1 b1 + abs_diff goal.2 b2) := by
    rcases h with ⟨h1, h2 | h2⟩ | ⟨h1, h2 | h2⟩
    · subst h1; subst h2
      have := (abs_diff_step goal.1 a1).1
      omega
    · subst h1; subst h2
      have := (abs_diff_step goal.1 b1).2
      omega
    · subst h1; subst h2
      have := (abs_diff_step goal.2 a2).1
      omega
    · subst h1; subst h2
      have := (abs_diff_step goal.2 b2).2
      omega
  have : ((abs_diff goal.1 a1 + abs_diff goal.2 a2 : Int) : ℝ) ≤
      ((1 + (abs_diff goal.1 b1 + abs_diff goal.2 b2) : Int) : ℝ) := by exact_mod_cast key
  push_cast at this
  linarith

/-- The weight of an edge of the filtered grid out of a non-barrier cell is at least 1. -/
theorem one_le_weight {m : maze} (hwf : m.well_formed) {a b : vertex_descriptor}
    (ha : m.open_cell a) (hb : m.open_cell b) (h : orth_adjacent a b) :
    1 ≤ maze.timeWeight a b m.m_elev :=
  one_le_timeWeight (orth_adjacent_not_diag h) (hwf a ha) (hwf b hb)

theorem search_graph_admits {m : maze} (hwf : m.well_formed)
    {top : (vertex_descriptor → WithTop ℝ) → List vertex_descriptor → vertex_descriptor}
    (htop : top_spec top) {s : vertex_descriptor} (hs : m.m_grid.contains s = true)
    (goal : vertex_descriptor) : Admits (m.search_graph goal top) s := by
  have hin : ∀ x, (x = s ∨ (m.search_graph goal top).vertices x = true) →
      m.m_grid.contains x = true := by
    rintro x (rfl | h)
    · exact hs
    · exact ((search_graph_vertices m goal top x).1 h).1
  refine
    { targets_in := ?_, weight_nonneg := fun x y => timeWeight_nonneg x y _,
      consistent := ?_, weight_pos := ?_, top_mem := htop.1, top_le := htop.2 }
  · intro x y hx hy
    rw [mem_search_graph_out_targets m goal top x y (hin x hx)] at hy
    exact (search_graph_vertices m goal top y).2 hy.2
  · intro x y hx hy
    rw [mem_search_graph_out_targets m goal top x y (hin x (Or.inr hx))] at hy
    have hxo := (search_graph_vertices m goal top x).1 hx
    have h1 := one_le_weight hwf hxo hy.2 hy.1
    have h2 := manhattan_heuristic_step goal x y hy.1
    show manhattan_heuristic goal x ≤ maze.timeWeight x y m.m_elev + manhattan_heuristic goal y
    linarith
  · intro x y hx hy
    rw [mem_search_graph_out_targets m goal top x y (hin x (Or.inr hx))] at hy
    have hxo := (search_graph_vertices m goal top x).1 hx
    have h1 := one_le_weight hwf hxo hy.2 hy.1
    show 0 < maze.timeWeight x y m.m_elev
    linarith

theorem top_first_cons {V : Type} {α : Type} [LinearOrderedCommRing α]
    (c : V → WithTop α) (v : V) (l : List V) (d : V) :
    top_first c (v :: l) d = if c (top_first c l v) < c v then top_first c l v else v := rfl

theorem top_first_mem {V : Type} {α : Type} [LinearOrderedCommRing α]
    (c : V → WithTop α) : ∀ (l : List V) (d : V),
    top_first c l d ∈ l ∨ (l = [] ∧ top_first c l d = d)
  | [], d => Or.inr ⟨rfl, rfl⟩
  | v :: l, d => by
    left
    rw [top_first_cons]
    split_ifs with h
    · rcases top_first_mem c l v with h' | ⟨rfl, h'⟩
      · exact List.mem_cons_of_mem _ h'
      · rw [h']; exact List.mem_cons_self _ _
    · exact List.mem_cons_self _ _

theorem top_first_le {V : Type} {α : Type} [LinearOrderedCommRing α]
    (c : V → WithTop α) : ∀ (l : List V) (d : V), ∀ w ∈ l, c (top_first c l d) ≤ c w
  | [], d => fun w hw => by cases hw
  | v :: l, d => by
    have ih := top_first_le c l v
    have key : c (top_first c (v :: l) d) ≤ c v ∧
        c (top_first c (v :: l) d) ≤ c (top_first c l v) := by
      rw [top_first_cons]
      split_ifs with h
      · exact ⟨le_of_lt h, le_refl _⟩
      · exact ⟨le_refl _, not_lt.1 h⟩
    intro w hw
    rcases List.mem_cons.1 hw with h | h
    · rw [h]; exact key.1
    · exact le_trans key.2 (ih w h)

theorem top_first_min_spec : top_spec top_first_min := by
  constructor
  · intro c l hl
    rcases top_first_mem c l (0, 0) with h | ⟨h, _⟩
    · exact h
    · exact absurd h hl
  · intro c l v hv
    exact top_first_le c l (0, 0) v hv

end FastestPath


namespace FastestPath

open default_color_type

section FoundChain

set_option linter.unusedSectionVars false

variable {V : Type} [DecidableEq V] {α : Type} [LinearOrderedCommRing α]
variable {G : astar_graph V α} {s goal : V}

theorem Walk.append {a b d : V} {c c' : α} (h1 : Walk G a b c) (h2 : Walk G b d c') :
    Walk G a d (c + c') := by
  induction h2 with
  | nil => rw [add_zero]; exact h1
  | snoc _ hz ih => rw [← add_assoc]; exact Walk.snoc ih hz

/-- In the state of success the predecessor map leads from the goal back to the start
vertex without repetition, along edges whose weights add up to the distance of the
goal. -/
theorem found_state.goal_chain (hA : Admits G s) (U : Finset V)
    (hU : ∀ v, (v = s ∨ G.vertices v = true) → v ∈ U)
    {st : astar_state V α} (hf : found_state G s goal st) :
    ∃ tl, pred_walk st.predecessor s goal tl ∧ (goal :: tl).Nodup ∧
      (∀ x ∈ goal :: tl, x = s ∨ G.vertices x = true) ∧
      List.Chain (fun a b => a ∈ G.out_targets b) goal tl ∧
      st.distance goal = ((chain_cost G.weight goal tl : α) : WithTop α) := by
  obtain ⟨st0, I, hgQ, -, rfl⟩ := hf
  have hgg : st0.color goal = gray_color := ((I.q_iff goal).1 hgQ).1
  obtain ⟨tl, h1, h2, h3, h4, h5⟩ :=
    I.chain hA U hU _ goal (by rw [hgg]; decide) rfl
  exact ⟨tl, h1, h2, fun x hx => I.dom x (h3 x hx).1, h4, h5⟩

theorem astar_search_sound (hA : Admits G s) {fuel : Nat} {b : Bool}
    {st : astar_state V α} (h : astar_search G s goal fuel = some (b, st)) :
    (b = true ∧ found_state G s goal st) ∨ (b = false ∧ exhausted_state G s goal st) :=
  bfs_loop_sound hA fuel _ b st (Inv.init G s goal) h

theorem astar_search_terminates (hA : Admits G s) (U : Finset V)
    (hU : ∀ v, (v = s ∨ G.vertices v = true) → v ∈ U) {fuel : Nat} (hfuel : U.card < fuel) :
    ∃ r, astar_search G s goal fuel = some r :=
  bfs_loop_terminates hA U hU fuel _ (Inv.init G s goal)
    (lt_of_le_of_lt (Finset.card_filter_le _ _) hfuel)

end FoundChain

/-! ## Paths of the maze and walks of the search graph -/

theorem path_cost_append_singleton (m : maze) : ∀ (p : List vertex_descriptor)
    (y z : vertex_descriptor), p.getLast? = some y →
    m.path_cost (p ++ [z]) = m.path_cost p + maze.timeWeight y z m.m_elev
  | [], y, z, h => by simp at h
  | [a], y, z, h => by
    simp only [List.getLast?_singleton, Option.some.injEq] at h
    subst h
    simp [maze.path_cost]
  | a :: b :: r, y, z, h => by
    rw [List.getLast?_cons_cons] at h
    have ih := path_cost_append_singleton m (b :: r) y z h
    have e : m.path_cost ((a :: b :: r) ++ [z]) =
        maze.timeWeight a b m.m_elev + m.path_cost ((b :: r) ++ [z]) := rfl
    rw [e, ih]
    simp only [maze.path_cost]
    rw [add_assoc]

theorem is_path.to_walk {m : maze} (goal : vertex_descriptor)
    (top : (vertex_descriptor → WithTop ℝ) → List vertex_descriptor → vertex_descriptor) :
    ∀ (p : List vertex_descriptor) (a g : vertex_descriptor), m.is_path a g p →
      Walk (m.search_graph goal top) a g (m.path_cost p)
  | [], a, g, h => by simp [maze.is_path] at h
  | [x], a, g, h => by
    obtain ⟨h1, h2, -, -⟩ := h
    simp only [List.head?_cons, Option.some.injEq, List.getLast?_singleton] at h1 h2
    subst h1; subst h2
    exact Walk.nil
  | x :: y :: r, a, g, h => by
    obtain ⟨h1, h2, h3, h4⟩ := h
    simp only [List.head?_cons, Option.some.injEq] at h1
    subst h1
    rw [List.getLast?_cons_cons] at h2
    rw [List.chain'_cons] at h4
    have hx := h3 x (List.mem_cons_self _ _)
    have hy := h3 y (List.mem_cons_of_mem _ (List.mem_cons_self _ _))
    have ih := is_path.to_walk goal top (y :: r) y g
      ⟨rfl, h2, fun v hv => h3 v (List.mem_cons_of_mem _ hv), h4.2⟩
    have hedge : y ∈ (m.search_graph goal top).out_targets x :=
      (mem_search_graph_out_targets m goal top x y hx.1).2 ⟨h4.1, hy⟩
    have h0 : Walk (m.search_graph goal top) x y (0 + maze.timeWeight x y m.m_elev) :=
      Walk.snoc Walk.nil hedge
    have := Walk.append h0 ih
    simp only [maze.path_cost]
    rw [zero_add] at this
    exact this

theorem Walk.to_path {m : maze} {goal : vertex_descriptor}
    {top : (vertex_descriptor → WithTop ℝ) → List vertex_descriptor → vertex_descriptor}
    {s x : vertex_descriptor} {c : ℝ} (hs : m.open_cell s)
    (h : Walk (m.search_graph goal top) s x c) :
    ∃ p, m.is_path s x p ∧ m.path_cost p = c := by
  induction h with
  | nil =>
    refine ⟨[s], ⟨rfl, rfl, ?_, List.chain'_singleton _⟩, rfl⟩
    intro v hv
    rw [List.mem_singleton] at hv
    rw [hv]; exact hs
  | @snoc y z c _ hz ih =>
    obtain ⟨p, ⟨h1, h2, h3, h4⟩, h5⟩ := ih
    have hy : m.open_cell y := h3 y (List.mem_of_mem_getLast? h2)
    rw [mem_search_graph_out_targets m goal top y z hy.1] at hz
    refine ⟨p ++ [z], ⟨?_, ?_, ?_, ?_⟩, ?_⟩
    · cases p with
      | nil => simp at h1
      | cons a r => simpa using h1
    · simp
    · intro v hv
      rcases List.mem_append.1 hv with h | h
      · exact h3 v h
      · rw [List.mem_singleton] at h
        rw [h]; exact hz.2
    · refine List.Chain'.append h4 (List.chain'_singleton _) ?_
      intro a ha b hb
      rw [h2] at ha
      simp only [Option.mem_def, Option.some.injEq, List.head?_cons] at ha hb
      rw [← ha, ← hb]
      exact hz.1
    · rw [path_cost_append_singleton m p y z h2, h5]
      rfl

end FastestPath


namespace FastestPath

open default_color_type

/-! ## `maze::solve` -/

/-- The number of cells of the grid of a maze. -/
theorem grid_cells_card (m : maze) :
    ((Finset.range m.m_grid.len0) ×ˢ (Finset.range m.m_grid.len1)).card =
      m.m_grid.len0 * m.m_grid.len1 := by
  simp

theorem mem_grid_cells (m : maze) (v : vertex_descriptor) :
    v ∈ (Finset.range m.m_grid.len0) ×ˢ (Finset.range m.m_grid.len1) ↔
      m.m_grid.contains v = true := by
  simp [grid.contains]

theorem mem_open_cells (m : maze) (v : vertex_descriptor) :
    v ∈ m.open_cells ↔ m.open_cell v := by
  simp [maze.open_cells, maze.open_cell, grid.contains]

theorem live_mem_grid_cells (m : maze) (goal : vertex_descriptor)
    (top : (vertex_descriptor → WithTop ℝ) → List vertex_descriptor → vertex_descriptor)
    {s : vertex_descriptor} (hs : m.m_grid.contains s = true) (v : vertex_descriptor)
    (h : v = s ∨ (m.search_graph goal top).vertices v = true) :
    v ∈ (Finset.range m.m_grid.len0) ×ˢ (Finset.range m.m_grid.len1) := by
  rw [mem_grid_cells]
  rcases h with rfl | h
  · exact hs
  · exact ((search_graph_vertices m goal top v).1 h).1

theorem solve_of_search_false {m : maze}
    {top : (vertex_descriptor → WithTop ℝ) → List vertex_descriptor → vertex_descriptor}
    {fuel : Nat} {s g : vertex_descriptor} {st : astar_state vertex_descriptor ℝ}
    (h : astar_search (m.search_graph g top) s g fuel = some (false, st)) :
    m.solve top fuel s g = some (false, m) := by
  unfold maze.solve
  rw [h]

theorem solve_of_search_true {m : maze}
    {top : (vertex_descriptor → WithTop ℝ) → List vertex_descriptor → vertex_descriptor}
    {fuel : Nat} {s g : vertex_descriptor} {st : astar_state vertex_descriptor ℝ}
    {sol : List vertex_descriptor}
    (h : astar_search (m.search_graph g top) s g fuel = some (true, st))
    (hw : walk_back st.predecessor s fuel g m.m_solution = some sol) :
    m.solve top fuel s g = some (true, { m with
      m_solution := sol.insert s
      m_solution_length := (st.distance g).untop' distance_inf }) := by
  unfold maze.solve
  rw [h]
  simp only
  rw [hw]

/-- What a call of `solve` that returns a result has done. -/
theorem solve_cases {m : maze}
    {top : (vertex_descriptor → WithTop ℝ) → List vertex_descriptor → vertex_descriptor}
    {fuel : Nat} {s g : vertex_descriptor} {b : Bool} {m' : maze}
    (h : m.solve top fuel s g = some (b, m')) :
    (b = false ∧ m' = m ∧
      ∃ st, astar_search (m.search_graph g top) s g fuel = some (false, st)) ∨
    (b = true ∧ ∃ st sol, astar_search (m.search_graph g top) s g fuel = some (true, st) ∧
      walk_back st.predecessor s fuel g m.m_solution = some sol ∧
      m' = { m with
        m_solution := sol.insert s
        m_solution_length := (st.distance g).untop' distance_inf }) := by
  unfold maze.solve at h
  cases hs : astar_search (m.search_graph g top) s g fuel with
  | none => rw [hs] at h; cases h
  | some r =>
    obtain ⟨b', st⟩ := r
    rw [hs] at h
    cases b' with
    | false =>
      simp only [Option.some.injEq, Prod.mk.injEq] at h
      exact Or.inl ⟨h.1.symm, h.2.symm, st, rfl⟩
    | true =>
      simp only at h
      cases hw : walk_back st.predecessor s fuel g m.m_solution with
      | none => rw [hw] at h; cases h
      | some sol =>
        rw [hw] at h
        simp only [Option.some.injEq, Prod.mk.injEq] at h
        exact Or.inr ⟨h.1.symm, st, sol, rfl, hw, h.2.symm⟩

/-- The facts about a successful search of a well-formed maze that the statements
about `solve` rest on. -/
theorem search_true_spec {m : maze} (hwf : m.well_formed)
    {top : (vertex_descriptor → WithTop ℝ) → List vertex_descriptor → vertex_descriptor}
    (htop : top_spec top) {s g : vertex_descriptor} (hs : m.m_grid.contains s = true)
    {fuel : Nat} {st : astar_state vertex_descriptor ℝ}
    (h : astar_search (m.search_graph g top) s g fuel = some (true, st)) :
    found_state (m.search_graph g top) s g st ∧
    ∃ tl, pred_walk st.predecessor s g tl ∧ (g :: tl).Nodup ∧
      (∀ x ∈ g :: tl, x = s ∨ m.open_cell x) ∧
      List.Chain (fun a b => orth_adjacent b a ∧ m.open_cell a) g tl ∧
      List.Chain (fun a b => a ∈ (m.search_graph g top).out_targets b) g tl ∧
      st.distance g =
        ((chain_cost (fun u v => maze.timeWeight u v m.m_elev) g tl : ℝ) : WithTop ℝ) ∧
      tl.length ≤ m.open_cells.card ∧ tl.length < m.m_grid.len0 * m.m_grid.len1 := by
  have hA := search_graph_admits hwf htop hs g
  have hf : found_state (m.search_graph g top) s g st := by
    rcases astar_search_sound hA h with ⟨_, hf⟩ | ⟨hb, _⟩
    · exact hf
    · cases hb
  refine ⟨hf, ?_⟩
  obtain ⟨tl, h1, h2, h3, h4, h5⟩ :=
    hf.goal_chain hA _ (live_mem_grid_cells m g top hs)
  have h3' : ∀ x ∈ g :: tl, x = s ∨ m.open_cell x := fun x hx => by
    rcases h3 x hx with h | h
    · exact Or.inl h
    · exact Or.inr ((search_graph_vertices m g top x).1 h)
  have hin : ∀ x ∈ g :: tl, m.m_grid.contains x = true := fun x hx => by
    rcases h3' x hx with h | h
    · rw [h]; exact hs
    · exact h.1
  have h4' : List.Chain (fun a b => orth_adjacent b a ∧ m.open_cell a) g tl := by
    have aux : ∀ (l : List vertex_descriptor) (a : vertex_descriptor),
        (∀ x ∈ a :: l, m.m_grid.contains x = true) →
        List.Chain (fun a b => a ∈ (m.search_graph g top).out_targets b) a l →
        List.Chain (fun a b => orth_adjacent b a ∧ m.open_cell a) a l := by
      intro l
      induction l with
      | nil => intro a _ _; exact List.Chain.nil
      | cons b r ih =>
        intro a hin hc
        rw [List.chain_cons] at hc ⊢
        refine ⟨?_, ih b (fun x hx => hin x (List.mem_cons_of_mem _ hx)) hc.2⟩
        exact (mem_search_graph_out_targets m g top b a
          (hin b (List.mem_cons_of_mem _ (List.mem_cons_self _ _)))).1 hc.1
    exact aux tl g hin h4
  obtain ⟨hlast, hne⟩ := pred_walk.last tl g h1
  have hlen : tl.length ≤ m.open_cells.card := by
    have hnd : (g :: tl).dropLast.Nodup := List.Nodup.sublist (List.dropLast_sublist _) h2
    have hsub : (g :: tl).dropLast.toFinset ⊆ m.open_cells := by
      intro x hx
      rw [List.mem_toFinset] at hx
      rw [mem_open_cells]
      rcases h3' x (List.dropLast_subset _ hx) with h | h
      · exact absurd h (hne x hx)
      · exact h
    have := Finset.card_le_card hsub
    rw [List.toFinset_card_of_nodup hnd, List.length_dropLast] at this
    simpa using this
  have hlt : tl.length < m.m_grid.len0 * m.m_grid.len1 := by
    have hsub : (g :: tl).toFinset ⊆
        (Finset.range m.m_grid.len0) ×ˢ (Finset.range m.m_grid.len1) := by
      intro x hx
      rw [List.mem_toFinset] at hx
      rw [mem_grid_cells]
      exact hin x hx
    have := Finset.card_le_card hsub
    rw [List.toFinset_card_of_nodup h2, grid_cells_card m, List.length_cons] at this
    omega
  exact ⟨tl, h1, h2, h3', h4', h4, h5, hlen, hlt⟩

/-- With more fuel than the grid has cells, `solve` returns a result. -/
theorem solve_terminates {m : maze} (hwf : m.well_formed)
    {top : (vertex_descriptor → WithTop ℝ) → List vertex_descriptor → vertex_descriptor}
    (htop : top_spec top) {s : vertex_descriptor} (hs : m.m_grid.contains s = true)
    (g : vertex_descriptor) {fuel : Nat} (hfuel : m.m_grid.len0 * m.m_grid.len1 < fuel) :
    ∃ b m', m.solve top fuel s g = some (b, m') := by
  have hA := search_graph_admits hwf htop hs g
  have hterm : ∃ r, astar_search (m.search_graph g top) s g fuel = some r :=
    astar_search_terminates hA _ (live_mem_grid_cells m g top hs)
      (by rw [grid_cells_card m]; exact hfuel)
  obtain ⟨⟨b, st⟩, hr⟩ := hterm
  cases b with
  | false => exact ⟨false, m, solve_of_search_false hr⟩
  | true =>
    obtain ⟨-, tl, h1, -, -, -, -, -, -, hlt⟩ := search_true_spec hwf htop hs hr
    obtain ⟨sol, hsol⟩ := walk_back_of_pred_walk tl g m.m_solution fuel h1 (by omega)
    exact ⟨true, _, solve_of_search_true hr hsol⟩

end FastestPath


namespace FastestPath

open default_color_type

/-! ## Statements about `maze::solve` -/

theorem solve_true_spec {m : maze} (hwf : m.well_formed)
    {top : (vertex_descriptor → WithTop ℝ) → List vertex_descriptor → vertex_descriptor}
    (htop : top_spec top) {s g : vertex_descriptor} (hs : m.m_grid.contains s = true)
    {fuel : Nat} {m' : maze} (h : m.solve top fuel s g = some (true, m')) :
    ∃ st tl, astar_search (m.search_graph g top) s g fuel = some (true, st) ∧
      found_state (m.search_graph g top) s g st ∧
      pred_walk st.predecessor s g tl ∧ (g :: tl).Nodup ∧
      (∀ x ∈ g :: tl, x = s ∨ m.open_cell x) ∧
      List.Chain (fun a b => orth_adjacent b a ∧ m.open_cell a) g tl ∧
      List.Chain (fun a b => a ∈ (m.search_graph g top).out_targets b) g tl ∧
      st.distance g = ((m'.m_solution_length : ℝ) : WithTop ℝ) ∧
      m'.m_solution_length = chain_cost (fun u v => maze.timeWeight u v m.m_elev) g tl ∧
      tl.length ≤ m.open_cells.card ∧
      (∀ x, x ∈ m'.m_solution ↔ x ∈ m.m_solution ∨ x ∈ g :: tl) ∧
      m'.m_grid = m.m_grid ∧ m'.m_elev = m.m_elev ∧ m'.m_barriers = m.m_barriers := by
  rcases solve_cases h with ⟨hb, -⟩ | ⟨-, st, sol, hsearch, hwalk, rfl⟩
  · cases hb
  obtain ⟨hf, tl, h1, h2, h3, h4, h4', h5, h6, -⟩ := search_true_spec hwf htop hs hsearch
  have hlen : (st.distance g).untop' distance_inf =
      chain_cost (fun u v => maze.timeWeight u v m.m_elev) g tl := by
    rw [h5]; rfl
  refine ⟨st, tl, hsearch, hf, h1, h2, h3, h4, h4', ?_, hlen, h6, ?_, rfl, rfl, rfl⟩
  · show st.distance g = (((st.distance g).untop' distance_inf : ℝ) : WithTop ℝ)
    rw [hlen, h5]
  · intro x
    show x ∈ sol.insert s ↔ _
    rw [List.mem_insert_iff, walk_back_mem tl g _ sol fuel h1 hwalk x]
    have hslast : s ∈ g :: tl := List.mem_of_mem_getLast? (pred_walk.last tl g h1).1
    constructor
    · rintro (h | h | ⟨h, -⟩)
      · rw [h]; exact Or.inr hslast
      · exact Or.inl h
      · exact Or.inr h
    · rintro (h | h)
      · exact Or.inr (Or.inl h)
      · by_cases hxs : x = s
        · exact Or.inl hxs
        · exact Or.inr (Or.inr ⟨h, hxs⟩)

/-- A path of the maze from the source to the goal makes `solve` succeed. -/
theorem solve_true_of_path {m : maze} (hwf : m.well_formed)
    {top : (vertex_descriptor → WithTop ℝ) → List vertex_descriptor → vertex_descriptor}
    (htop : top_spec top) {s g : vertex_descriptor} (hs : m.m_grid.contains s = true)
    {fuel : Nat} (hfuel : m.m_grid.len0 * m.m_grid.len1 < fuel) {p : List vertex_descriptor}
    (hp : m.is_path s g p) : ∃ m', m.solve top fuel s g = some (true, m') := by
  obtain ⟨b, m', h⟩ := solve_terminates hwf htop hs g hfuel
  rcases solve_cases h with ⟨-, -, st, hsearch⟩ | ⟨hb, -⟩
  · exfalso
    have hA := search_graph_admits hwf htop hs g
    rcases astar_search_sound hA hsearch with ⟨hb, -⟩ | ⟨-, he⟩
    · cases hb
    · exact he.unreachable hA (is_path.to_walk g top p s g hp)
  · subst hb
    exact ⟨m', h⟩

/-- A successful `solve` has a path of the maze whose cost is the recorded length. -/
theorem solve_true_path {m : maze} (hwf : m.well_formed)
    {top : (vertex_descriptor → WithTop ℝ) → List vertex_descriptor → vertex_descriptor}
    (htop : top_spec top) {s g : vertex_descriptor} (hs : m.open_cell s)
    {fuel : Nat} {m' : maze} (h : m.solve top fuel s g = some (true, m')) :
    ∃ p, m.is_path s g p ∧ m.path_cost p = m'.m_solution_length := by
  obtain ⟨st, tl, -, -, h1, -, -, -, h4, -, h6, -⟩ := solve_true_spec hwf htop hs.1 h
  have hw := pred_walk.walk (G := m.search_graph g top) tl g h1 h4
  obtain ⟨p, hp, hc⟩ := Walk.to_path hs hw
  exact ⟨p, hp, hc.trans h6.symm⟩

/-- No path of the maze is cheaper than the length a successful `solve` records. -/
theorem solve_true_le {m : maze} (hwf : m.well_formed)
    {top : (vertex_descriptor → WithTop ℝ) → List vertex_descriptor → vertex_descriptor}
    (htop : top_spec top) {s g : vertex_descriptor} (hs : m.m_grid.contains s = true)
    {fuel : Nat} {m' : maze} (h : m.solve top fuel s g = some (true, m'))
    {p : List vertex_descriptor} (hp : m.is_path s g p) :
    m'.m_solution_length ≤ m.path_cost p := by
  obtain ⟨st, tl, -, hf, -, -, -, -, -, h5, -⟩ := solve_true_spec hwf htop hs h
  have hA := search_graph_admits hwf htop hs g
  have := hf.optimal hA (is_path.to_walk g top p s g hp)
  rw [h5] at this
  exact_mod_cast this

/-! ## The flat terrain used as a concrete input -/

theorem getD_replicate_lt {n i a d : Nat} (h : i < n) : (List.replicate n a).getD i d = a := by
  rw [List.getD_eq_getElem?_getD, List.getElem?_replicate_of_lt h]
  rfl

theorem flat_overrides_length : flat_overrides.length = IMAGE_DIM * IMAGE_DIM := by
  unfold flat_overrides
  exact List.length_replicate _ _

theorem flat_elevation_length : flat_elevation.length = IMAGE_DIM * IMAGE_DIM := by
  unfold flat_elevation
  exact List.length_replicate _ _

theorem flat_overrides_getD {i : Nat} (h : i < IMAGE_DIM * IMAGE_DIM) :
    flat_overrides.getD i 0 = 0 := by
  unfold flat_overrides
  exact getD_replicate_lt h

theorem flat_elevation_getD {i : Nat} (h : i < IMAGE_DIM * IMAGE_DIM) :
    flat_elevation.getD i 0 = 100 := by
  unfold flat_elevation
  exact getD_replicate_lt h

theorem flat_well_formed (x y : Nat) :
    (make_maze x y flat_overrides flat_elevation).1.well_formed :=
  make_maze_well_formed x y flat_overrides flat_elevation flat_overrides_length

theorem flat_open (x y : Nat) {v : vertex_descriptor} (h1 : v.1 < IMAGE_DIM)
    (h2 : v.2 < IMAGE_DIM) :
    (make_maze x y flat_overrides flat_elevation).1.open_cell v := by
  obtain ⟨cx, cy⟩ := v
  have hidx : cx + cy * IMAGE_DIM < IMAGE_DIM * IMAGE_DIM := by
    simp only [IMAGE_DIM] at h1 h2 ⊢
    omega
  refine ⟨?_, ?_⟩
  · rw [make_maze_grid]
    simp [grid.contains, h1, h2]
  · have := has_barrier_make_maze_iff x y flat_overrides flat_elevation
      flat_overrides_length cx cy h1 h2
    rw [flat_overrides_getD hidx, flat_elevation_getD hidx] at this
    have hf : is_flagged 0 100 = false := by decide
    rw [hf] at this
    cases hb : (make_maze x y flat_overrides flat_elevation).1.has_barrier (cx, cy) with
    | false => rfl
    | true =>
      have := this.1 hb
      cases this

theorem flat_fuel (x y : Nat) :
    (make_maze x y flat_overrides flat_elevation).1.m_grid.len0 *
      (make_maze x y flat_overrides flat_elevation).1.m_grid.len1 <
    IMAGE_DIM * IMAGE_DIM + 1 := by
  rw [make_maze_grid]
  exact Nat.lt_succ_self _

theorem flat_step_path (x y : Nat) :
    (make_maze x y flat_overrides flat_elevation).1.is_path (0, 0) (1, 0) [(0, 0), (1, 0)] := by
  refine ⟨rfl, rfl, ?_, ?_⟩
  · intro v hv
    simp only [List.mem_cons, List.mem_singleton, List.not_mem_nil, or_false] at hv
    rcases hv with rfl | rfl
    · exact flat_open x y (by decide) (by decide)
    · exact flat_open x y (by decide) (by decide)
  · simp [orth_adjacent]

end FastestPath


namespace FastestPath

/-! ## The claims about the cost of a step -/

theorem timeWeight_pos_aux (a b : vertex_descriptor) (el : List Nat)
    (ha : elevation_at el a ≠ 0) (hb : elevation_at el b ≠ 0) :
    0 < maze.timeWeight a b el := by
  unfold maze.timeWeight
  simp only [cwConstant_cast, ha, hb, or_self, if_false]
  have hpos : ∀ (c d : ℝ), 0 < c → 0 < Real.sqrt (c + 0.003937 * d ^ 2) := fun c d hc =>
    Real.sqrt_pos.2 (by positivity)
  split_ifs with h2 h3 h4 h5 h6
  · norm_num
  · have : (0 : ℝ) < ((elevation_at el b - elevation_at el a : Int) : ℝ) := by exact_mod_cast h4
    have := hpos 1 ((elevation_at el b - elevation_at el a : Int) : ℝ) one_pos
    nlinarith
  · have : ((elevation_at el b - elevation_at el a : Int) : ℝ) ≤ 0 := by
      exact_mod_cast not_lt.1 h4
    have := hpos 1 ((elevation_at el b - elevation_at el a : Int) : ℝ) one_pos
    nlinarith
  · norm_num
  · have : (0 : ℝ) < ((elevation_at el b - elevation_at el a : Int) : ℝ) := by exact_mod_cast h6
    have := hpos 2 ((elevation_at el b - elevation_at el a : Int) : ℝ) two_pos
    nlinarith
  · have : ((elevation_at el b - elevation_at el a : Int) : ℝ) ≤ 0 := by
      exact_mod_cast not_lt.1 h6
    have := hpos 2 ((elevation_at el b - elevation_at el a : Int) : ℝ) two_pos
    nlinarith

theorem timeWeight_flat_diag_aux (a b : vertex_descriptor) (el : List Nat)
    (hd : abs_diff a.1 b.1 = abs_diff a.2 b.2)
    (he : elevation_at el a = elevation_at el b) (hn : elevation_at el a ≠ 0) :
    maze.timeWeight a b el = 1.414 := by
  unfold maze.timeWeight
  have hb : elevation_at el b ≠ 0 := he ▸ hn
  simp [hd, hn, hb, he]

theorem sqrt_two_gt : (1.414 : ℝ) < Real.sqrt 2 := by
  rw [Real.lt_sqrt (by norm_num)]
  norm_num

/-- C7: the cost formula on a slope.  For cells whose coordinates fit an `int` (every
cell of the grid does) and whose elevations are non-zero and differ, with
`delta = targetElevation - sourceElevation` and `base` equal to `√2` when
`|Δx| = |Δy|` and to `1` otherwise, `timeWeight` is
`sqrt (base² + 0.003937·delta²) + 5·0.0627455·delta` when `delta > 0` and
`sqrt (base² + 0.003937·delta²) - 5·0.0627455·delta` when `delta < 0`. -/
theorem timeWeight_slope (source target : vertex_descriptor) (elevation : List Nat)
    (hs1 : source.1 < 2 ^ 31) (hs2 : source.2 < 2 ^ 31)
    (ht1 : target.1 < 2 ^ 31) (ht2 : target.2 < 2 ^ 31)
    (hse : elevation_at elevation source ≠ 0) (hte : elevation_at elevation target ≠ 0)
    (base : ℝ)
    (hbase : base = if |(source.1 : Int) - (target.1 : Int)| = |(source.2 : Int) - (target.2 : Int)|
      then Real.sqrt 2 else 1)
    (delta : Int) (hdelta : delta = elevation_at elevation target - elevation_at elevation source) :
    (0 < delta → maze.timeWeight source target elevation =
      Real.sqrt (base ^ 2 + 0.003937 * (delta : ℝ) ^ 2) + 5 * 0.0627455 * (delta : ℝ)) ∧
    (delta < 0 → maze.timeWeight source target elevation =
      Real.sqrt (base ^ 2 + 0.003937 * (delta : ℝ) ^ 2) - 5 * 0.0627455 * (delta : ℝ)) := by
  subst hdelta
  have hsq : Real.sqrt 2 ^ 2 = 2 := Real.sq_sqrt (by norm_num)
  unfold maze.timeWeight
  simp only [cwConstant_cast, hse, hte, or_self, if_false,
    abs_diff_eq _ _ hs1 ht1, abs_diff_eq _ _ hs2 ht2]
  by_cases hd : |(source.1 : Int) - (target.1 : Int)| = |(source.2 : Int) - (target.2 : Int)|
  · rw [if_pos hd] at hbase
    subst hbase
    simp only [hd, decide_True, Bool.not_true, Bool.false_eq_true, if_false, hsq]
    constructor
    · intro h
      rw [if_neg (ne_of_gt h), if_pos h]
    · intro h
      rw [if_neg (ne_of_lt h), if_neg (not_lt.2 (le_of_lt h))]
  · rw [if_neg hd] at hbase
    subst hbase
    simp only [hd, decide_False, Bool.not_false, if_true, one_pow]
    constructor
    · intro h
      rw [if_neg (ne_of_gt h), if_pos h]
    · intro h
      rw [if_neg (ne_of_lt h), if_neg (not_lt.2 (le_of_lt h))]

theorem timeWeight_slope_witness :
    (maze.timeWeight (0, 0) (1, 0) [100, 110] =
      Real.sqrt (1 ^ 2 + 0.003937 * ((10 : Int) : ℝ) ^ 2) + 5 * 0.0627455 * ((10 : Int) : ℝ)) ∧
    (maze.timeWeight (1, 0) (0, 0) [100, 110] =
      Real.sqrt (1 ^ 2 + 0.003937 * ((-10 : Int) : ℝ) ^ 2) -
        5 * 0.0627455 * ((-10 : Int) : ℝ)) :=
  ⟨(timeWeight_slope (0, 0) (1, 0) [100, 110] (by decide) (by decide) (by decide) (by decide)
      (by decide) (by decide) 1 (by simp) 10 (by decide)).1 (by decide),
    (timeWeight_slope (1, 0) (0, 0) [100, 110] (by decide) (by decide) (by decide) (by decide)
      (by decide) (by decide) 1 (by simp) (-10) (by decide)).2 (by decide)⟩

/-- C8: a flat orthogonal step.  For cells whose coordinates fit an `int` (every cell
of the grid does), an orthogonal step (`|Δx| ≠ |Δy|`) between two cells of equal
non-zero elevation costs exactly 1, whatever the common elevation is. -/
theorem timeWeight_flat_orthogonal (source target : vertex_descriptor)
    (elevation : List Nat)
    (hs1 : source.1 < 2 ^ 31) (hs2 : source.2 < 2 ^ 31)
    (ht1 : target.1 < 2 ^ 31) (ht2 : target.2 < 2 ^ 31)
    (ho : |(source.1 : Int) - (target.1 : Int)| ≠ |(source.2 : Int) - (target.2 : Int)|)
    (he : elevation_at elevation source = elevation_at elevation target)
    (hn : elevation_at elevation source ≠ 0) :
    maze.timeWeight source target elevation = 1 := by
  have hb : elevation_at elevation target ≠ 0 := he ▸ hn
  unfold maze.timeWeight
  simp [abs_diff_eq _ _ hs1 ht1, abs_diff_eq _ _ hs2 ht2, ho, hn, hb, he]

theorem timeWeight_flat_orthogonal_witness :
    maze.timeWeight (0, 0) (1, 0) [255, 255] = 1 :=
  timeWeight_flat_orthogonal (0, 0) (1, 0) [255, 255] (by decide) (by decide) (by decide)
    (by decide) (by decide) (by decide) (by decide)

/-- C9: a flat diagonal step.  At the concrete input of a diagonal step from `(0, 0)`
to `(1, 1)` between two cells of elevation 100, `timeWeight` returns the constant
`1.414` of the source, which is strictly below `√2`. -/
theorem timeWeight_flat_diagonal :
    maze.timeWeight (0, 0) (1, 1) (List.replicate 2050 100) = 1.414 ∧
      (1.414 : ℝ) < Real.sqrt 2 := by
  have h0 : elevation_at (List.replicate 2050 100) (0, 0) = 100 := by
    unfold elevation_at
    rw [getD_replicate_lt (by decide)]
    rfl
  have h1 : elevation_at (List.replicate 2050 100) (1, 1) = 100 := by
    unfold elevation_at
    rw [getD_replicate_lt (by decide)]
    rfl
  refine ⟨timeWeight_flat_diag_aux _ _ _ (by decide) (by rw [h0, h1]) (by rw [h0]; decide),
    sqrt_two_gt⟩

/-- C10: positive cost.  For every ordered pair of cells whose elevations are both
non-zero, adjacent or not, `timeWeight` returns a strictly positive cost. -/
theorem timeWeight_pos (source target : vertex_descriptor) (elevation : List Nat)
    (hse : elevation_at elevation source ≠ 0) (hte : elevation_at elevation target ≠ 0) :
    0 < maze.timeWeight source target elevation :=
  timeWeight_pos_aux source target elevation hse hte

theorem timeWeight_pos_witness : 0 < maze.timeWeight (1, 0) (0, 0) [200, 10] :=
  timeWeight_pos (1, 0) (0, 0) [200, 10] (by decide) (by decide)

end FastestPath


namespace FastestPath

/-! ## The claims about `make_maze` -/

theorem is_flagged_iff (o e : Nat) :
    is_flagged o e = true ↔ (o &&& (OF_WATER_BASIN ||| OF_RIVER_MARSH) ≠ 0 ∨ e = 0) := by
  simp [is_flagged]

/-- C5: barrier classification.  For override and elevation maps of length
`IMAGE_DIM * IMAGE_DIM` (`IMAGE_DIM` is 2048), after `make_maze` a cell `(cx, cy)` of
the grid is a barrier exactly when, at the linear index `cx + cy * IMAGE_DIM`, the
override byte has the water-basin or the river-marsh bit or the elevation is 0; a cell
whose override byte is `OF_INLAND` alone and whose elevation is not 0 is no barrier. -/
theorem has_barrier_make_maze (x y : Nat) (overrides elevation : List Nat)
    (hov : overrides.length = IMAGE_DIM * IMAGE_DIM)
    (_hel : elevation.length = IMAGE_DIM * IMAGE_DIM)
    (cx cy : Nat) (hx : cx < IMAGE_DIM) (hy : cy < IMAGE_DIM) :
    IMAGE_DIM = 2048 ∧
    ((make_maze x y overrides elevation).1.has_barrier (cx, cy) = true ↔
      (overrides.getD (cx + cy * IMAGE_DIM) 0 &&& (OF_WATER_BASIN ||| OF_RIVER_MARSH) ≠ 0 ∨
        elevation.getD (cx + cy * IMAGE_DIM) 0 = 0)) ∧
    (overrides.getD (cx + cy * IMAGE_DIM) 0 = OF_INLAND →
      elevation.getD (cx + cy * IMAGE_DIM) 0 ≠ 0 →
      (make_maze x y overrides elevation).1.has_barrier (cx, cy) = false) := by
  have key := (has_barrier_make_maze_iff x y overrides elevation hov cx cy hx hy).trans
    (is_flagged_iff _ _)
  refine ⟨rfl, key, ?_⟩
  intro ho he
  cases hb : (make_maze x y overrides elevation).1.has_barrier (cx, cy) with
  | false => rfl
  | true =>
    exfalso
    rcases key.1 hb with h | h
    · rw [ho] at h
      exact h (by decide)
    · exact he h

theorem has_barrier_make_maze_witness :
    IMAGE_DIM = 2048 ∧
    ((make_maze IMAGE_DIM IMAGE_DIM flat_overrides flat_elevation).1.has_barrier (3, 5) = true ↔
      (flat_overrides.getD (3 + 5 * IMAGE_DIM) 0 &&& (OF_WATER_BASIN ||| OF_RIVER_MARSH) ≠ 0 ∨
        flat_elevation.getD (3 + 5 * IMAGE_DIM) 0 = 0)) ∧
    (flat_overrides.getD (3 + 5 * IMAGE_DIM) 0 = OF_INLAND →
      flat_elevation.getD (3 + 5 * IMAGE_DIM) 0 ≠ 0 →
      (make_maze IMAGE_DIM IMAGE_DIM flat_overrides flat_elevation).1.has_barrier (3, 5) =
        false) :=
  has_barrier_make_maze IMAGE_DIM IMAGE_DIM flat_overrides flat_elevation
    flat_overrides_length flat_elevation_length 3 5 (by decide) (by decide)

/-- C6, as the claim states it, fails on the example of the specification: for the 2x2
elevation map `[10, 0, 20, 30]` with override map `[0, 0, 0x40, 0]` the cell `(0, 1)`
is no barrier and the cell `(2, 0)`, outside the 2x2 grid, is one. -/
theorem make_maze_example_not_side_two :
    (make_maze 2 2 [0, 0, 0x40, 0] [10, 0, 20, 30]).1.has_barrier (0, 1) = false ∧
    (make_maze 2 2 [0, 0, 0x40, 0] [10, 0, 20, 30]).1.has_barrier (2, 0) = true := by
  decide

theorem make_maze_example_barriers :
    (make_maze 2 2 [0, 0, 0x40, 0] [10, 0, 20, 30]).1.m_barriers = [(2, 0), (1, 0)] := by
  decide

/-- C6, amended: `make_maze` does not use the side length it is given and lays the
maps out on the grid of side `IMAGE_DIM`.  For every side length `s ≥ 1` and maps of
length `s * s`, the barriers are the cells `(i mod IMAGE_DIM, (i / IMAGE_DIM) mod
IMAGE_DIM)` of the flagged linear indices `i`, the count is the number of flagged
indices, which is the number of barrier cells when `s ≤ IMAGE_DIM`; for the 2x2
elevation map `[10, 0, 20, 30]` with override map `[0, 0, 0x40, 0]` the barrier set is
exactly `{(1, 0), (2, 0)}` and the count is exactly 2. -/
theorem make_maze_image_dim (s : Nat) (_hs : 1 ≤ s) (overrides elevation : List Nat)
    (hov : overrides.length = s * s) (_hel : elevation.length = s * s) :
    (∀ v, (make_maze s s overrides elevation).1.has_barrier v = true ↔
      ∃ i, i < s * s ∧ is_flagged (overrides.getD i 0) (elevation.getD i 0) = true ∧
        v = (i % IMAGE_DIM, i / IMAGE_DIM % IMAGE_DIM)) ∧
    (make_maze s s overrides elevation).2 =
      overrides.enum.countP (fun io => is_flagged io.2 (elevation.getD io.1 0)) ∧
    (s ≤ IMAGE_DIM → (make_maze s s overrides elevation).2 =
      (make_maze s s overrides elevation).1.m_barriers.length) ∧
    (∀ v, (make_maze 2 2 [0, 0, 0x40, 0] [10, 0, 20, 30]).1.has_barrier v = true ↔
      v = (1, 0) ∨ v = (2, 0)) ∧
    (make_maze 2 2 [0, 0, 0x40, 0] [10, 0, 20, 30]).2 = 2 := by
  refine ⟨?_, make_maze_count s s overrides elevation, ?_, ?_, by decide⟩
  · intro v
    unfold maze.has_barrier
    rw [decide_eq_true_iff, mem_barriers_make_maze, hov]
  · intro hle
    apply make_maze_count_eq_length
    rw [hov]
    exact Nat.mul_le_mul hle hle
  · intro v
    unfold maze.has_barrier
    rw [decide_eq_true_iff, make_maze_example_barriers]
    simp only [List.mem_cons, List.mem_singleton, List.not_mem_nil, or_false]
    exact Or.comm

theorem make_maze_image_dim_witness :
    (1 ≤ 2 ∧ [0, 0, 0x40, 0].length = 2 * 2 ∧ [10, 0, 20, 30].length = 2 * 2) ∧
    (∀ v, (make_maze 2 2 [0, 0, 0x40, 0] [10, 0, 20, 30]).1.has_barrier v = true ↔
      ∃ i, i < 2 * 2 ∧
        is_flagged ([0, 0, 0x40, 0].getD i 0) ([10, 0, 20, 30].getD i 0) = true ∧
        v = (i % IMAGE_DIM, i / IMAGE_DIM % IMAGE_DIM)) :=
  ⟨⟨by decide, rfl, rfl⟩,
    (make_maze_image_dim 2 (by decide) [0, 0, 0x40, 0] [10, 0, 20, 30] rfl rfl).1⟩

end FastestPath


namespace FastestPath

/-! ## The claims about `maze::solve` -/

/-- C1: optimality of `solve`.  For the maze `make_maze` builds from override and
elevation maps of length `IMAGE_DIM * IMAGE_DIM`, for every tie-break of the queue and
every source and goal that are cells of the grid and no barriers: whenever `solve`
returns true, the recorded length `m_solution_length` is the least summed `timeWeight`
of a path of orthogonal steps through non-barrier cells from source to goal: no path
is cheaper, and some path has exactly this cost. -/
theorem solve_optimal (x y : Nat) (overrides elevation : List Nat)
    (hov : overrides.length = IMAGE_DIM * IMAGE_DIM)
    (_hel : elevation.length = IMAGE_DIM * IMAGE_DIM)
    (top : (vertex_descriptor → WithTop ℝ) → List vertex_descriptor → vertex_descriptor)
    (htop : top_spec top) (fuel : Nat) (source goal : vertex_descriptor)
    (hs : (make_maze x y overrides elevation).1.open_cell source)
    (_hg : (make_maze x y overrides elevation).1.open_cell goal) (m' : maze)
    (h : (make_maze x y overrides elevation).1.solve top fuel source goal = some (true, m')) :
    (∀ p, (make_maze x y overrides elevation).1.is_path source goal p →
      m'.m_solution_length ≤ (make_maze x y overrides elevation).1.path_cost p) ∧
    ∃ p, (make_maze x y overrides elevation).1.is_path source goal p ∧
      (make_maze x y overrides elevation).1.path_cost p = m'.m_solution_length :=
  have hwf := make_maze_well_formed x y overrides elevation hov
  ⟨fun _ hp => solve_true_le hwf htop hs.1 h hp, solve_true_path hwf htop hs h⟩

theorem solve_optimal_witness :
    ∃ m', (make_maze IMAGE_DIM IMAGE_DIM flat_overrides flat_elevation).1.solve top_first_min
        (IMAGE_DIM * IMAGE_DIM + 1) (0, 0) (1, 0) = some (true, m') ∧
      (∀ p, (make_maze IMAGE_DIM IMAGE_DIM flat_overrides flat_elevation).1.is_path
          (0, 0) (1, 0) p →
        m'.m_solution_length ≤
          (make_maze IMAGE_DIM IMAGE_DIM flat_overrides flat_elevation).1.path_cost p) ∧
      ∃ p, (make_maze IMAGE_DIM IMAGE_DIM flat_overrides flat_elevation).1.is_path
          (0, 0) (1, 0) p ∧
        (make_maze IMAGE_DIM IMAGE_DIM flat_overrides flat_elevation).1.path_cost p =
          m'.m_solution_length := by
  obtain ⟨m', h⟩ := solve_true_of_path (flat_well_formed IMAGE_DIM IMAGE_DIM)
    top_first_min_spec (flat_open IMAGE_DIM IMAGE_DIM (v := (0, 0)) (by decide) (by decide)).1
    (flat_fuel IMAGE_DIM IMAGE_DIM) (flat_step_path IMAGE_DIM IMAGE_DIM)
  exact ⟨m', h, solve_optimal IMAGE_DIM IMAGE_DIM flat_overrides flat_elevation
    flat_overrides_length flat_elevation_length top_first_min top_first_min_spec _ (0, 0) (1, 0)
    (flat_open IMAGE_DIM IMAGE_DIM (by decide) (by decide))
    (flat_open IMAGE_DIM IMAGE_DIM (by decide) (by decide)) m' h⟩

end FastestPath


namespace FastestPath

open default_color_type

/-! ## Further facts about `timeWeight` and the heuristic -/

theorem abs_diff_comm (a b : Nat) : abs_diff a b = abs_diff b a := by
  unfold abs_diff
  rw [abs_to_int, abs_to_int]
  unfold size_sub
  have hA : a % 2 ^ 64 < 2 ^ 64 := Nat.mod_lt _ (by norm_num)
  have hB : b % 2 ^ 64 < 2 ^ 64 := Nat.mod_lt _ (by norm_num)
  generalize a % 2 ^ 64 = A at hA
  generalize b % 2 ^ 64 = B at hB
  rcases Nat.lt_or_ge A B with h | h
  · have h1 : (A + (2 ^ 64 - B)) % 2 ^ 64 = 2 ^ 64 - (B - A) := by omega
    have h2 : (B + (2 ^ 64 - A)) % 2 ^ 64 = B - A := by omega
    rw [h1, h2]
    have hd : 0 < B - A := by omega
    have hd2 : B - A < 2 ^ 64 := by omega
    generalize B - A = d at hd hd2
    split_ifs <;> omega
  · have h1 : (A + (2 ^ 64 - B)) % 2 ^ 64 = A - B := by omega
    rcases Nat.eq_or_lt_of_le h with h0 | h0
    · subst h0
      have h2 : (B + (2 ^ 64 - B)) % 2 ^ 64 = B - B := by omega
      rw [h2]
    · have h2 : (B + (2 ^ 64 - A)) % 2 ^ 64 = 2 ^ 64 - (A - B) := by omega
      rw [h1, h2]
      have hd : 0 < A - B := by omega
      have hd2 : A - B < 2 ^ 64 := by omega
      generalize A - B = d at hd hd2
      split_ifs <;> omega

theorem manhattan_heuristic_self (goal : vertex_descriptor) :
    manhattan_heuristic goal goal = 0 := by
  unfold manhattan_heuristic
  rw [abs_diff_self, abs_diff_self]
  simp

theorem timeWeight_comm (u v : vertex_descriptor) (el : List Nat) :
    maze.timeWeight u v el = maze.timeWeight v u el := by
  unfold maze.timeWeight
  simp only [cwConstant_cast, abs_diff_comm v.1 u.1, abs_diff_comm v.2 u.2]
  by_cases hu : elevation_at el u = 0
  · simp [hu]
  by_cases hv : elevation_at el v = 0
  · simp [hv]
  simp only [hu, hv, or_self, if_false]
  have hsq : ((elevation_at el u - elevation_at el v : Int) : ℝ) ^ 2 =
      ((elevation_at el v - elevation_at el u : Int) : ℝ) ^ 2 := by
    push_cast
    ring
  have hneg : ((elevation_at el u - elevation_at el v : Int) : ℝ) =
      -((elevation_at el v - elevation_at el u : Int) : ℝ) := by
    push_cast
    ring
  rcases lt_trichotomy (elevation_at el v - elevation_at el u) 0 with h | h | h
  · have h1 : ¬ elevation_at el v - elevation_at el u = 0 := ne_of_lt h
    have h2 : ¬ elevation_at el v - elevation_at el u > 0 := not_lt.2 (le_of_lt h)
    have h3 : ¬ elevation_at el u - elevation_at el v = 0 := by omega
    have h4 : elevation_at el u - elevation_at el v > 0 := by omega
    simp only [h1, h2, h3, h4, if_true, if_false, hsq]
    rw [hneg]
    split_ifs <;> ring
  · have h3 : elevation_at el u - elevation_at el v = 0 := by omega
    simp only [h, h3, if_true]
  · have h1 : ¬ elevation_at el v - elevation_at el u = 0 := ne_of_gt h
    have h3 : ¬ elevation_at el u - elevation_at el v = 0 := by omega
    have h4 : ¬ elevation_at el u - elevation_at el v > 0 := by omega
    have h2 : elevation_at el v - elevation_at el u > 0 := h
    simp only [h1, h2, h3, h4, if_true, if_false, hsq]
    rw [hneg]
    split_ifs <;> ring

theorem timeWeight_zero_aux (a b : vertex_descriptor) (el : List Nat)
    (h : elevation_at el a = 0 ∨ elevation_at el b = 0) : maze.timeWeight a b el = 0 := by
  unfold maze.timeWeight
  simp only [h, if_true]

/-- On a downward slope the source adds the correction: the cost is the slope term plus
`5 * 0.0627455 * |delta|`. -/
theorem timeWeight_downhill_aux (a b : vertex_descriptor) (el : List Nat)
    (ha : elevation_at el a ≠ 0) (hb : elevation_at el b ≠ 0)
    (hd : elevation_at el b - elevation_at el a < 0) :
    maze.timeWeight a b el =
      Real.sqrt ((if abs_diff a.1 b.1 = abs_diff a.2 b.2 then 2 else 1) +
          0.003937 * ((elevation_at el b - elevation_at el a : Int) : ℝ) ^ 2) +
        5 * 0.0627455 * |((elevation_at el b - elevation_at el a : Int) : ℝ)| := by
  have hneg : ((elevation_at el b - elevation_at el a : Int) : ℝ) < 0 := by exact_mod_cast hd
  rw [abs_of_neg hneg]
  unfold maze.timeWeight
  simp only [cwConstant_cast, ha, hb, or_self, if_false]
  have h1 : ¬ elevation_at el b - elevation_at el a = 0 := ne_of_lt hd
  have h2 : ¬ elevation_at el b - elevation_at el a > 0 := not_lt.2 (le_of_lt hd)
  by_cases hdiag : abs_diff a.1 b.1 = abs_diff a.2 b.2
  · simp only [hdiag, decide_True, Bool.not_true, Bool.false_eq_true, if_false, h1, h2,
      if_true]
    ring
  · simp only [hdiag, decide_False, Bool.not_false, if_true, h1, h2, if_false]
    ring

end FastestPath


namespace FastestPath

open default_color_type

/-- The heuristic is a lower bound along a path: in a maze that satisfies the invariant,
the heuristic at the start of a path is at most the cost of the path plus the heuristic
at its end, for every goal of the heuristic. -/
theorem heuristic_le_path_cost {m : maze} (hwf : m.well_formed) (goal : vertex_descriptor) :
    ∀ (p : List vertex_descriptor) (a g : vertex_descriptor), m.is_path a g p →
      manhattan_heuristic goal a ≤ m.path_cost p + manhattan_heuristic goal g
  | [], a, g, h => by
    have h1 := h.1
    simp at h1
  | [x], a, g, h => by
    obtain ⟨h1, h2, -, -⟩ := h
    simp only [List.head?_cons, Option.some.injEq] at h1
    simp only [List.getLast?_singleton, Option.some.injEq] at h2
    subst h1
    subst h2
    simp [maze.path_cost]
  | x :: y :: r, a, g, h => by
    obtain ⟨h1, h2, h3, h4⟩ := h
    simp only [List.head?_cons, Option.some.injEq] at h1
    subst h1
    have hc := List.chain'_cons.1 h4
    have hlast : (y :: r).getLast? = some g := by
      rw [List.getLast?_cons_cons] at h2
      exact h2
    have ih := heuristic_le_path_cost hwf goal (y :: r) y g
      ⟨rfl, hlast, fun v hv => h3 v (List.mem_cons_of_mem _ hv), hc.2⟩
    have hstep := manhattan_heuristic_step goal x y hc.1
    have hw := one_le_weight hwf (h3 x (List.mem_cons_self _ _))
      (h3 y (List.mem_cons_of_mem _ (List.mem_cons_self _ _))) hc.1
    show _ ≤ maze.timeWeight x y m.m_elev + m.path_cost (y :: r) + _
    linarith

/-! ## C11: a step at the zero sentinel -/

/-- C11 (the code at the failing input): with the elevation map `[0, 100]` the cell
`(0, 0)` has the zero sentinel and the cell `(1, 0)` has elevation 100, and `timeWeight`
gives the step between them, in either direction, the cost 0: the step is the cheapest
possible one, not an infinitely expensive one. -/
theorem timeWeight_zero_elevation :
    elevation_at [0, 100] (0, 0) = 0 ∧ elevation_at [0, 100] (1, 0) = 100 ∧
      maze.timeWeight (0, 0) (1, 0) [0, 100] = 0 ∧
      maze.timeWeight (1, 0) (0, 0) [0, 100] = 0 := by
  have h0 : elevation_at [0, 100] (0, 0) = 0 := by
    simp [elevation_at, IMAGE_DIM]
  have h1 : elevation_at [0, 100] (1, 0) = 100 := by
    simp [elevation_at, IMAGE_DIM]
  exact ⟨h0, h1, timeWeight_zero_aux _ _ _ (Or.inl h0), timeWeight_zero_aux _ _ _ (Or.inr h0)⟩

/-! ## C12: the correction on a downward slope -/

/-- C12 (counterexample): with the elevation map `[110, 100]` the step from `(0, 0)` down
to `(1, 0)` has `delta = -10`, and its `timeWeight` is strictly greater than the slope
term `sqrt (1 + 0.003937 * delta ^ 2)`, not smaller. -/
theorem timeWeight_downhill_example :
    elevation_at [110, 100] (0, 0) = 110 ∧ elevation_at [110, 100] (1, 0) = 100 ∧
      Real.sqrt (1 + 0.003937 * ((-10 : Int) : ℝ) ^ 2) <
        maze.timeWeight (0, 0) (1, 0) [110, 100] := by
  have h0 : elevation_at [110, 100] (0, 0) = 110 := by
    simp [elevation_at, IMAGE_DIM]
  have h1 : elevation_at [110, 100] (1, 0) = 100 := by
    simp [elevation_at, IMAGE_DIM]
  refine ⟨h0, h1, ?_⟩
  have hd : abs_diff ((0, 0) : vertex_descriptor).1 ((1, 0) : vertex_descriptor).1 ≠
      abs_diff ((0, 0) : vertex_descriptor).2 ((1, 0) : vertex_descriptor).2 :=
    orth_adjacent_not_diag (Or.inl ⟨rfl, Or.inl rfl⟩)
  rw [timeWeight_downhill_aux (0, 0) (1, 0) [110, 100] (by rw [h0]; decide)
    (by rw [h1]; decide) (by rw [h0, h1]; decide), if_neg hd, h0, h1]
  norm_num

/-- C12 (amended): for two cells with non-zero elevations and `delta < 0`, `timeWeight`
is the slope term `sqrt (base ^ 2 + 0.003937 * delta ^ 2)` (`base ^ 2` is 2 when the
diagonal test holds, 1 otherwise) plus `5 * 0.0627455 * |delta|`: the directional
correction raises the cost, and `timeWeight` is strictly greater than the slope term
alone. -/
theorem timeWeight_downhill (a b : vertex_descriptor) (el : List Nat)
    (ha : elevation_at el a ≠ 0) (hb : elevation_at el b ≠ 0)
    (hd : elevation_at el b - elevation_at el a < 0) :
    maze.timeWeight a b el =
        Real.sqrt ((if abs_diff a.1 b.1 = abs_diff a.2 b.2 then 2 else 1) +
            0.003937 * ((elevation_at el b - elevation_at el a : Int) : ℝ) ^ 2) +
          5 * 0.0627455 * |((elevation_at el b - elevation_at el a : Int) : ℝ)| ∧
      Real.sqrt ((if abs_diff a.1 b.1 = abs_diff a.2 b.2 then 2 else 1) +
          0.003937 * ((elevation_at el b - elevation_at el a : Int) : ℝ) ^ 2) <
        maze.timeWeight a b el := by
  have h := timeWeight_downhill_aux a b el ha hb hd
  refine ⟨h, ?_⟩
  rw [h]
  have hneg : ((elevation_at el b - elevation_at el a : Int) : ℝ) ≠ 0 := by
    exact_mod_cast ne_of_lt hd
  have hpos := abs_pos.2 hneg
  linarith

theorem timeWeight_downhill_witness :
    maze.timeWeight (0, 0) (1, 0) [110, 100] =
        Real.sqrt ((if abs_diff ((0, 0) : vertex_descriptor).1 ((1, 0) : vertex_descriptor).1 =
            abs_diff ((0, 0) : vertex_descriptor).2 ((1, 0) : vertex_descriptor).2 then 2 else 1) +
            0.003937 * ((elevation_at [110, 100] (1, 0) - elevation_at [110, 100] (0, 0) : Int) : ℝ) ^ 2) +
          5 * 0.0627455 *
            |((elevation_at [110, 100] (1, 0) - elevation_at [110, 100] (0, 0) : Int) : ℝ)| ∧
      Real.sqrt ((if abs_diff ((0, 0) : vertex_descriptor).1 ((1, 0) : vertex_descriptor).1 =
            abs_diff ((0, 0) : vertex_descriptor).2 ((1, 0) : vertex_descriptor).2 then 2 else 1) +
          0.003937 * ((elevation_at [110, 100] (1, 0) - elevation_at [110, 100] (0, 0) : Int) : ℝ) ^ 2) <
        maze.timeWeight (0, 0) (1, 0) [110, 100] :=
  timeWeight_downhill (0, 0) (1, 0) [110, 100] (by simp [elevation_at, IMAGE_DIM])
    (by simp [elevation_at, IMAGE_DIM]) (by simp [elevation_at, IMAGE_DIM])

/-! ## C13: the value of the heuristic -/

/-- C18: in a maze built by `make_maze` from maps of length `IMAGE_DIM * IMAGE_DIM`, for
every goal and every cell `v`, the heuristic `manhattan_heuristic goal v` is at most the
summed `timeWeight` of every path of orthogonal steps through non-barrier cells from `v`
to the goal. -/
theorem manhattan_heuristic_admissible (x y : Nat) (ov el : List Nat)
    (hov : ov.length = IMAGE_DIM * IMAGE_DIM) (_hel : el.length = IMAGE_DIM * IMAGE_DIM)
    (v goal : vertex_descriptor) (p : List vertex_descriptor)
    (hp : (make_maze x y ov el).1.is_path v goal p) :
    manhattan_heuristic goal v ≤ (make_maze x y ov el).1.path_cost p := by
  have h := heuristic_le_path_cost (make_maze_well_formed x y ov el hov) goal p v goal hp
  rw [manhattan_heuristic_self] at h
  linarith

theorem manhattan_heuristic_admissible_witness :
    manhattan_heuristic (1, 0) (0, 0) ≤
      (make_maze 0 0 flat_overrides flat_elevation).1.path_cost [(0, 0), (1, 0)] :=
  manhattan_heuristic_admissible 0 0 flat_overrides flat_elevation flat_overrides_length
    flat_elevation_length (0, 0) (1, 0) [(0, 0), (1, 0)] (flat_step_path 0 0)

/-! ## C19: the cost does not depend on the direction -/

/-- C19: for every elevation map and every two cells `u`, `v` whose linear indices are
within the map, `timeWeight u v elevation = timeWeight v u elevation`: a step up a slope
and the step down the same slope cost the same. -/
theorem timeWeight_symmetric (u v : vertex_descriptor) (el : List Nat)
    (_hu : (u.1 + u.2 * IMAGE_DIM) % 2 ^ 64 < el.length)
    (_hv : (v.1 + v.2 * IMAGE_DIM) % 2 ^ 64 < el.length) :
    maze.timeWeight u v el = maze.timeWeight v u el :=
  timeWeight_comm u v el

theorem timeWeight_symmetric_witness :
    maze.timeWeight (0, 0) (1, 0) [100, 110] = maze.timeWeight (1, 0) (0, 0) [100, 110] :=
  timeWeight_symmetric (0, 0) (1, 0) [100, 110] (by decide) (by decide)

end FastestPath


namespace FastestPath

open default_color_type

/-! ## Further facts about `solve` -/

/-- When the source is the goal the first vertex popped is the goal. -/
theorem astar_search_self {V : Type} [DecidableEq V] {α : Type} [LinearOrderedCommRing α]
    (G : astar_graph V α) (s : V) (fuel : Nat) (htop : ∀ c, G.top c [s] = s) :
    astar_search G s s (fuel + 1) =
      some (true, { astar_init G s with Q := [s].erase s }) := by
  unfold astar_search bfs_loop
  have hq : (astar_init G s).Q = [s] := rfl
  simp only [hq, htop, List.cons_ne_nil, if_false, if_true]

/-- With the source as goal `solve` succeeds at once: it inserts the source into the
solution set and records the length 0, whatever the cell is. -/
theorem solve_self (m : maze)
    {top : (vertex_descriptor → WithTop ℝ) → List vertex_descriptor → vertex_descriptor}
    (htop : top_spec top) (fuel : Nat) (s : vertex_descriptor) :
    m.solve top (fuel + 1) s s =
      some (true, { m with m_solution := m.m_solution.insert s, m_solution_length := 0 }) := by
  have ht : ∀ c, (m.search_graph s top).top c [s] = s := by
    intro c
    have := htop.1 c [s] (List.cons_ne_nil _ _)
    exact List.mem_singleton.1 this
  have hsearch := astar_search_self (m.search_graph s top) s fuel ht
  have hwalk : walk_back ({ astar_init (m.search_graph s top) s with
      Q := [s].erase s }).predecessor s (fuel + 1) s m.m_solution = some m.m_solution := by
    rw [walk_back, if_pos rfl]
  rw [solve_of_search_true hsearch hwalk]
  have hd : (({ astar_init (m.search_graph s top) s with
      Q := [s].erase s } : astar_state vertex_descriptor ℝ).distance s).untop' distance_inf = 0 := by
    simp [astar_init]
  rw [hd]

/-- What `solve` with the source as goal leaves: the maze with the source inserted into
the solution set and the length 0. -/
theorem solve_self_spec (m : maze)
    {top : (vertex_descriptor → WithTop ℝ) → List vertex_descriptor → vertex_descriptor}
    (htop : top_spec top) (fuel : Nat) (s : vertex_descriptor) :
    ∃ m1, m.solve top (fuel + 1) s s = some (true, m1) ∧ m1.m_grid = m.m_grid ∧
      m1.m_elev = m.m_elev ∧ m1.m_barriers = m.m_barriers ∧
      m1.m_solution = m.m_solution.insert s ∧ m1.m_solution_length = 0 :=
  ⟨_, solve_self m htop fuel s, rfl, rfl, rfl, rfl, rfl⟩

/-- A maze whose solution set has a member is solved. -/
theorem solved_of_mem {m : maze} {u : vertex_descriptor} (h : u ∈ m.m_solution) :
    m.solved = true := by
  unfold maze.solved
  cases hl : m.m_solution with
  | nil =>
    rw [hl] at h
    cases h
  | cons a l => rfl

/-- The invariant depends on the grid, the elevation map and the barrier set only. -/
theorem well_formed_of_eq {m m' : maze} (hg : m'.m_grid = m.m_grid)
    (he : m'.m_elev = m.m_elev) (hb : m'.m_barriers = m.m_barriers) (hwf : m.well_formed) :
    m'.well_formed := by
  intro v hv
  rw [he]
  apply hwf v
  unfold maze.open_cell maze.has_barrier at hv ⊢
  rw [hg, hb] at hv
  exact hv

/-- A walk of the search graph from the source to the goal makes `solve` succeed. -/
theorem solve_true_of_walk {m : maze} (hwf : m.well_formed)
    {top : (vertex_descriptor → WithTop ℝ) → List vertex_descriptor → vertex_descriptor}
    (htop : top_spec top) {s g : vertex_descriptor} (hs : m.m_grid.contains s = true)
    {fuel : Nat} (hfuel : m.m_grid.len0 * m.m_grid.len1 < fuel) {c : ℝ}
    (hw : Walk (m.search_graph g top) s g c) :
    ∃ m', m.solve top fuel s g = some (true, m') := by
  obtain ⟨b, m', h⟩ := solve_terminates hwf htop hs g hfuel
  rcases solve_cases h with ⟨-, -, st, hsearch⟩ | ⟨hb, -⟩
  · exfalso
    have hA := search_graph_admits hwf htop hs g
    rcases astar_search_sound hA hsearch with ⟨hb, -⟩ | ⟨-, he⟩
    · cases hb
    · exact he.unreachable hA hw
  · subst hb
    exact ⟨m', h⟩

/-- A goal that is a barrier and is not the source is not found. -/
theorem solve_false_of_barrier_goal {m : maze} (hwf : m.well_formed)
    {top : (vertex_descriptor → WithTop ℝ) → List vertex_descriptor → vertex_descriptor}
    (htop : top_spec top) {s g : vertex_descriptor} (hs : m.m_grid.contains s = true)
    (hg : m.has_barrier g = true) (hne : g ≠ s)
    {fuel : Nat} (hfuel : m.m_grid.len0 * m.m_grid.len1 < fuel) :
    m.solve top fuel s g = some (false, m) := by
  obtain ⟨b, m', h⟩ := solve_terminates hwf htop hs g hfuel
  cases b
  · rcases solve_cases h with ⟨-, rfl, -⟩ | ⟨hb, -⟩
    · exact h
    · cases hb
  · exfalso
    obtain ⟨st, tl, -, -, -, -, h3, -⟩ := solve_true_spec hwf htop hs h
    rcases h3 g (List.mem_cons_self _ _) with h' | h'
    · exact hne h'
    · rw [h'.2] at hg
      cases hg

/-- After a successful `solve` the source is in the solution set. -/
theorem solve_true_source_mem {m : maze}
    {top : (vertex_descriptor → WithTop ℝ) → List vertex_descriptor → vertex_descriptor}
    {fuel : Nat} {s g : vertex_descriptor} {m' : maze}
    (h : m.solve top fuel s g = some (true, m')) : s ∈ m'.m_solution := by
  rcases solve_cases h with ⟨hb, -⟩ | ⟨-, st, sol, -, -, rfl⟩
  · cases hb
  · show s ∈ sol.insert s
    exact List.mem_insert_self _ _

/-! ## The example terrains -/

theorem basin_overrides_length : basin_overrides.length = IMAGE_DIM * IMAGE_DIM := by
  unfold basin_overrides
  rw [List.length_cons, List.length_replicate]
  decide

theorem basin_well_formed (x y : Nat) :
    (make_maze x y basin_overrides flat_elevation).1.well_formed :=
  make_maze_well_formed x y basin_overrides flat_elevation basin_overrides_length

theorem basin_contains (x y : Nat) {v : vertex_descriptor} (h1 : v.1 < IMAGE_DIM)
    (h2 : v.2 < IMAGE_DIM) :
    (make_maze x y basin_overrides flat_elevation).1.m_grid.contains v = true := by
  rw [make_maze_grid]
  simp [grid.contains, h1, h2]

/-- The cell `(0, 0)` of the basin terrain is a barrier. -/
theorem basin_barrier (x y : Nat) :
    (make_maze x y basin_overrides flat_elevation).1.has_barrier (0, 0) = true := by
  rw [has_barrier_make_maze_iff x y basin_overrides flat_elevation basin_overrides_length 0 0
    (by decide) (by decide), is_flagged_iff]
  left
  have : basin_overrides.getD (0 + 0 * IMAGE_DIM) 0 = 0x40 := rfl
  rw [this]
  decide

/-- The cell `(1, 0)` of the basin terrain is open. -/
theorem basin_open (x y : Nat) :
    (make_maze x y basin_overrides flat_elevation).1.open_cell (1, 0) := by
  refine ⟨basin_contains x y (by decide) (by decide), ?_⟩
  have hb := has_barrier_make_maze_iff x y basin_overrides flat_elevation
    basin_overrides_length 1 0 (by decide) (by decide)
  have h1 : basin_overrides.getD (1 + 0 * IMAGE_DIM) 0 = 0 := by
    show (List.replicate (IMAGE_DIM * IMAGE_DIM - 1) 0).getD 0 0 = 0
    exact getD_replicate_lt (by decide)
  have h2 : flat_elevation.getD (1 + 0 * IMAGE_DIM) 0 = 100 := flat_elevation_getD (by decide)
  rw [h1, h2] at hb
  cases hc : (make_maze x y basin_overrides flat_elevation).1.has_barrier (1, 0)
  · rfl
  · have := hb.1 hc
    revert this
    decide

theorem basin_fuel (x y : Nat) :
    (make_maze x y basin_overrides flat_elevation).1.m_grid.len0 *
      (make_maze x y basin_overrides flat_elevation).1.m_grid.len1 <
    IMAGE_DIM * IMAGE_DIM + 1 := by
  rw [make_maze_grid]
  exact Nat.lt_succ_self _

/-- One edge of the search graph of the basin terrain leads from the barrier `(0, 0)` to
its open neighbour `(1, 0)`. -/
theorem basin_walk (x y : Nat)
    (top : (vertex_descriptor → WithTop ℝ) → List vertex_descriptor → vertex_descriptor) :
    ∃ c, Walk ((make_maze x y basin_overrides flat_elevation).1.search_graph (1, 0) top)
      (0, 0) (1, 0) c := by
  refine ⟨_, Walk.snoc Walk.nil ?_⟩
  rw [mem_search_graph_out_targets _ _ _ _ _ (basin_contains x y (by decide) (by decide))]
  exact ⟨Or.inl ⟨rfl, Or.inl rfl⟩, basin_open x y⟩

theorem island_elevation_getD {i : Nat} (h : i < IMAGE_DIM * IMAGE_DIM) :
    island_elevation.getD i 0 = if i % IMAGE_DIM < 4 ∧ i / IMAGE_DIM < 4 then 100 else 0 := by
  unfold island_elevation
  rw [List.getD_eq_getElem?_getD, List.getElem?_map, List.getElem?_range h]
  rfl

/-- A cell of the island terrain outside the 4x4 block is a barrier. -/
theorem island_barrier (x y : Nat) {cx cy : Nat} (hx : cx < IMAGE_DIM) (hy : cy < IMAGE_DIM)
    (hout : 4 ≤ cx ∨ 4 ≤ cy) :
    (make_maze x y flat_overrides island_elevation).1.has_barrier (cx, cy) = true := by
  have hidx : cx + cy * IMAGE_DIM < IMAGE_DIM * IMAGE_DIM := by
    simp only [IMAGE_DIM] at hx hy ⊢
    omega
  rw [has_barrier_make_maze_iff x y flat_overrides island_elevation flat_overrides_length
    cx cy hx hy, is_flagged_iff]
  right
  rw [island_elevation_getD hidx, if_neg]
  simp only [IMAGE_DIM] at hx hy ⊢
  omega

end FastestPath


namespace FastestPath

open default_color_type

/-! ## C14: barriers and the solution set -/

/-- C14 (counterexample): in the maze `make_maze` builds from the basin overrides and the
flat elevation the cell `(0, 0)` is a barrier, `solve` from `(0, 0)` to `(1, 0)` returns
true, and afterwards `(0, 0)` is a member of the solution set and of the barrier set. -/
theorem solve_barrier_source_example :
    (make_maze IMAGE_DIM IMAGE_DIM basin_overrides flat_elevation).1.has_barrier (0, 0) = true ∧
      ∃ m', (make_maze IMAGE_DIM IMAGE_DIM basin_overrides flat_elevation).1.solve top_first_min
          (IMAGE_DIM * IMAGE_DIM + 1) (0, 0) (1, 0) = some (true, m') ∧
        m'.solution_contains (0, 0) = true ∧ m'.has_barrier (0, 0) = true := by
  have hb := basin_barrier IMAGE_DIM IMAGE_DIM
  have hwf := basin_well_formed IMAGE_DIM IMAGE_DIM
  have hs : (make_maze IMAGE_DIM IMAGE_DIM basin_overrides flat_elevation).1.m_grid.contains
      (0, 0) = true := basin_contains IMAGE_DIM IMAGE_DIM (by decide) (by decide)
  obtain ⟨c, hw⟩ := basin_walk IMAGE_DIM IMAGE_DIM top_first_min
  obtain ⟨m', h⟩ := solve_true_of_walk hwf top_first_min_spec hs
    (basin_fuel IMAGE_DIM IMAGE_DIM) hw
  refine ⟨hb, m', h, ?_, ?_⟩
  · unfold maze.solution_contains
    exact decide_eq_true (solve_true_source_mem h)
  · obtain ⟨st, tl, -, -, -, -, -, -, -, -, -, -, -, -, -, hbar⟩ :=
      solve_true_spec hwf top_first_min_spec hs h
    unfold maze.has_barrier at hb ⊢
    rw [hbar]
    exact hb

/-- C14 (amended): in a maze that satisfies the invariant of `make_maze` (no open cell
has elevation 0) and whose solution set holds no barrier, for every source that is a cell
of the grid and no barrier and every goal: after `solve` returns true no cell of the
solution set is a member of the barrier set. -/
theorem solution_avoids_barriers (m : maze) (hwf : m.well_formed)
    (top : (vertex_descriptor → WithTop ℝ) → List vertex_descriptor → vertex_descriptor)
    (htop : top_spec top) (fuel : Nat) (source goal : vertex_descriptor)
    (hs : m.open_cell source)
    (hclean : ∀ u, m.solution_contains u = true → m.has_barrier u = false) (m' : maze)
    (h : m.solve top fuel source goal = some (true, m')) :
    ∀ u, m'.solution_contains u = true → m'.has_barrier u = false := by
  obtain ⟨st, tl, -, -, -, -, hcells, -, -, -, -, -, hmem, -, -, hbar⟩ :=
    solve_true_spec hwf htop hs.1 h
  intro u hu
  have hb : m'.has_barrier u = m.has_barrier u := by
    unfold maze.has_barrier
    rw [hbar]
  rw [hb]
  unfold maze.solution_contains at hu
  rcases (hmem u).1 (of_decide_eq_true hu) with h1 | h1
  · exact hclean u (decide_eq_true h1)
  · rcases hcells u h1 with h2 | h2
    · rw [h2]
      exact hs.2
    · exact h2.2

theorem solution_avoids_barriers_witness :
    ∃ m', (make_maze IMAGE_DIM IMAGE_DIM flat_overrides flat_elevation).1.solve top_first_min
        (IMAGE_DIM * IMAGE_DIM + 1) (0, 0) (1, 0) = some (true, m') ∧
      ∀ u, m'.solution_contains u = true → m'.has_barrier u = false := by
  obtain ⟨m', h⟩ := solve_true_of_path (flat_well_formed IMAGE_DIM IMAGE_DIM)
    top_first_min_spec (flat_open IMAGE_DIM IMAGE_DIM (v := (0, 0)) (by decide) (by decide)).1
    (flat_fuel IMAGE_DIM IMAGE_DIM) (flat_step_path IMAGE_DIM IMAGE_DIM)
  refine ⟨m', h, solution_avoids_barriers _ (flat_well_formed IMAGE_DIM IMAGE_DIM)
    top_first_min top_first_min_spec _ (0, 0) (1, 0)
    (flat_open IMAGE_DIM IMAGE_DIM (by decide) (by decide)) ?_ m' h⟩
  intro u hu
  unfold maze.solution_contains at hu
  rw [make_maze_solution] at hu
  simp at hu

/-! ## C15: a source or a goal that is a barrier -/

/-- C15 (counterexample): in the maze `make_maze` builds from the basin overrides and the
flat elevation the cell `(0, 0)` is a barrier, and `solve` from `(0, 0)` to `(0, 0)`
returns true and records a solution: afterwards `solved` is true and the solution set
contains `(0, 0)`. -/
theorem solve_barrier_self_example :
    (make_maze IMAGE_DIM IMAGE_DIM basin_overrides flat_elevation).1.has_barrier (0, 0) = true ∧
      ∃ m', (make_maze IMAGE_DIM IMAGE_DIM basin_overrides flat_elevation).1.solve top_first_min
          1 (0, 0) (0, 0) = some (true, m') ∧
        m'.solved = true ∧ m'.solution_contains (0, 0) = true := by
  obtain ⟨m1, h1, -, -, -, hsol, -⟩ := solve_self_spec
    (make_maze IMAGE_DIM IMAGE_DIM basin_overrides flat_elevation).1 top_first_min_spec 0 (0, 0)
  have hmem : ((0, 0) : vertex_descriptor) ∈ m1.m_solution := by
    rw [hsol]
    exact List.mem_insert_self _ _
  exact ⟨basin_barrier IMAGE_DIM IMAGE_DIM, m1, h1, solved_of_mem hmem, decide_eq_true hmem⟩

/-- C15 (amended): in a maze that satisfies the invariant of `make_maze`, for a source
that is a cell of the grid (a barrier or not): if the goal is a barrier and is not the
source, `solve` returns false and leaves the maze as it was, for every fuel above the
number of cells of the grid; if the goal is the source, `solve` returns true, inserts the
source into the solution set and records the length 0, also when the cell is a barrier. -/
theorem solve_blocked_endpoint (m : maze) (hwf : m.well_formed)
    (top : (vertex_descriptor → WithTop ℝ) → List vertex_descriptor → vertex_descriptor)
    (htop : top_spec top) (source : vertex_descriptor)
    (hs : m.m_grid.contains source = true) :
    (∀ goal fuel, m.has_barrier goal = true → goal ≠ source →
        m.m_grid.len0 * m.m_grid.len1 < fuel →
        m.solve top fuel source goal = some (false, m)) ∧
      ∀ fuel, m.solve top (fuel + 1) source source =
        some (true, { m with
          m_solution := m.m_solution.insert source
          m_solution_length := 0 }) :=
  ⟨fun _ _ hg hne hfuel => solve_false_of_barrier_goal hwf htop hs hg hne hfuel,
    fun fuel => solve_self m htop fuel source⟩

theorem solve_blocked_endpoint_witness :
    (make_maze IMAGE_DIM IMAGE_DIM basin_overrides flat_elevation).1.has_barrier (0, 0) = true ∧
      (make_maze IMAGE_DIM IMAGE_DIM basin_overrides flat_elevation).1.solve top_first_min
          (IMAGE_DIM * IMAGE_DIM + 1) (1, 0) (0, 0) =
        some (false, (make_maze IMAGE_DIM IMAGE_DIM basin_overrides flat_elevation).1) :=
  ⟨basin_barrier IMAGE_DIM IMAGE_DIM,
    (solve_blocked_endpoint _ (basin_well_formed IMAGE_DIM IMAGE_DIM) top_first_min
      top_first_min_spec (1, 0) (basin_contains IMAGE_DIM IMAGE_DIM (by decide) (by decide))).1
      (0, 0) _ (basin_barrier IMAGE_DIM IMAGE_DIM) (by decide) (basin_fuel IMAGE_DIM IMAGE_DIM)⟩

/-! ## C16: solving again -/

/-- C20: whenever `solve` returns false, the maze is the one before the call: the
solution set and the recorded length are unchanged, and `solved` and `solution_contains`
give the answers they gave before (so `solved` stays true after an earlier success). -/
theorem solve_false_unchanged (m : maze)
    (top : (vertex_descriptor → WithTop ℝ) → List vertex_descriptor → vertex_descriptor)
    (fuel : Nat) (source goal : vertex_descriptor) (m' : maze)
    (h : m.solve top fuel source goal = some (false, m')) :
    m'.m_solution = m.m_solution ∧ m'.m_solution_length = m.m_solution_length ∧
      m'.solved = m.solved ∧ ∀ u, m'.solution_contains u = m.solution_contains u := by
  rcases solve_cases h with ⟨-, rfl, -⟩ | ⟨hb, -⟩
  · exact ⟨rfl, rfl, rfl, fun _ => rfl⟩
  · cases hb

theorem solve_false_unchanged_witness :
    ∃ m1 m2, (make_maze IMAGE_DIM IMAGE_DIM basin_overrides flat_elevation).1.solve top_first_min
        1 (1, 0) (1, 0) = some (true, m1) ∧ m1.solved = true ∧
      m1.solve top_first_min (IMAGE_DIM * IMAGE_DIM + 1) (1, 0) (0, 0) = some (false, m2) ∧
      (m2.m_solution = m1.m_solution ∧ m2.m_solution_length = m1.m_solution_length ∧
        m2.solved = m1.solved ∧ ∀ u, m2.solution_contains u = m1.solution_contains u) := by
  obtain ⟨m1, h1, hg, he, hb, hsol, -⟩ := solve_self_spec
    (make_maze IMAGE_DIM IMAGE_DIM basin_overrides flat_elevation).1 top_first_min_spec 0 (1, 0)
  have hwf1 : m1.well_formed :=
    well_formed_of_eq hg he hb (basin_well_formed IMAGE_DIM IMAGE_DIM)
  have hs : m1.m_grid.contains (1, 0) = true := by
    rw [hg]
    exact basin_contains IMAGE_DIM IMAGE_DIM (by decide) (by decide)
  have hbar : m1.has_barrier (0, 0) = true := by
    unfold maze.has_barrier
    rw [hb]
    exact basin_barrier IMAGE_DIM IMAGE_DIM
  have hfuel : m1.m_grid.len0 * m1.m_grid.len1 < IMAGE_DIM * IMAGE_DIM + 1 := by
    rw [hg]
    exact basin_fuel IMAGE_DIM IMAGE_DIM
  have hmem : ((1, 0) : vertex_descriptor) ∈ m1.m_solution := by
    rw [hsol]
    exact List.mem_insert_self _ _
  have h2 := solve_false_of_barrier_goal hwf1 top_first_min_spec hs hbar (by decide) hfuel
  exact ⟨m1, m1, h1, solved_of_mem hmem, h2,
    solve_false_unchanged m1 top_first_min _ (1, 0) (0, 0) m1 h2⟩

end FastestPath
